import Mathlib

/-!
# Verification of the Conversational Context Engine (Ztrios/taxation backend)

Shallow embedding of the Python backend's core string-processing logic:

* `src/backend/services/tokenizer.py` — token estimation,
* `src/backend/services/chat.py` — history truncation, knowledge-base merge,
  identity extraction, the chat turn,
* `src/backend/services/query_rewriter.py` — model fallback at init, query
  rewriting and response parsing,
* `src/backend/services/rag.py` — retrieval formatting.

Python strings are modelled as `List Char`; only ASCII whitespace matters for
the inputs this backend handles, so `str.strip()` / `\s` are modelled with the
ASCII whitespace class.  Fallible operations take their external outcomes
(LLM responses, retrieval hits) as explicit arguments.  All definitions are
executable; loops are fueled with a fuel that provably suffices.
-/

namespace Taxation

/-! ## Python string primitives on `List Char` -/

/-- ASCII whitespace, the class of both Python's `str.strip()` (on ASCII text)
and the regex class `\s`. -/
def pyIsSpace (c : Char) : Bool :=
  c = ' ' || c = '\t' || c = '\n' || c = '\r' || c = '\x0b' || c = '\x0c'

/-- ASCII decimal digit, the regex class `\d` on ASCII text. -/
def pyIsDigit (c : Char) : Bool :=
  '0' ≤ c && c ≤ '9'

/-- `str.lstrip()` (whitespace variant). -/
def stripL (l : List Char) : List Char := l.dropWhile pyIsSpace

/-- `str.rstrip()` (whitespace variant). -/
def stripR (l : List Char) : List Char := (l.reverse.dropWhile pyIsSpace).reverse

/-- Python `str.strip()`. -/
def pyStrip (l : List Char) : List Char := stripR (stripL l)

/-- `str.find` returning `none` for Python's `-1`: index of the first
occurrence of `pat` in `s`, scanning left to right. -/
def pyFindAux (pat : List Char) : List Char → Nat → Option Nat
  | s, i =>
    if pat.isPrefixOf s then some i
    else
      match s with
      | [] => none
      | _ :: t => pyFindAux pat t (i + 1)

def pyFind (x pat : List Char) : Option Nat := pyFindAux pat x 0

/-- Python slice `s[a:b]` for non-negative bounds. -/
def pySlice (x : List Char) (a b : Nat) : List Char := (x.take b).drop a

/-- Python slice `s[a:]`. -/
def pySliceFrom (x : List Char) (a : Nat) : List Char := x.drop a

/-- Python `s.split(sep)` for a non-empty separator `sep` (fueled; fuel
`s.length + 1` suffices because every step consumes at least one character). -/
def pySplitF (sep : List Char) : Nat → List Char → List (List Char)
  | 0, x => [x]
  | fuel + 1, x =>
    match pyFind x sep with
    | none => [x]
    | some i => x.take i :: pySplitF sep fuel (x.drop (i + sep.length))

def pySplit (sep x : List Char) : List (List Char) :=
  pySplitF sep (x.length + 1) x

/-- Python `s.split()` with no separator: split on runs of whitespace,
dropping empty pieces. -/
def wsSplitF : Nat → List Char → List (List Char)
  | 0, _ => []
  | fuel + 1, x =>
    let x1 := x.dropWhile pyIsSpace
    match x1 with
    | [] => []
    | _ => x1.takeWhile (fun c => !pyIsSpace c) ::
        wsSplitF fuel (x1.dropWhile (fun c => !pyIsSpace c))

def wsSplit (x : List Char) : List (List Char) := wsSplitF (x.length + 1) x

/-- Value of a list of decimal digits, Python `int(...)` on a digit string. -/
def natOfDigits (ds : List Char) : Nat :=
  ds.foldl (fun n c => n * 10 + (c.toNat - 48)) 0

/-! ## `services/tokenizer.py` -/

/-- A chat message `{"role": ..., "content": ...}`. -/
structure Msg where
  role : List Char
  content : List Char
deriving DecidableEq, Repr

/-- `count_tokens`: the temporary approximation `len(text.split()) * 2`. -/
def count_tokens (text : List Char) : Nat := (wsSplit text).length * 2

/-- `count_messages_tokens`: sum of `count_tokens(f"{role}: {content}")`. -/
def count_messages_tokens (messages : List Msg) : Nat :=
  (messages.map (fun m => count_tokens (m.role ++ (": ".data) ++ m.content))).sum

/-! ## `ChatService.truncate_history` (`services/chat.py:24-42`)

The `while` loop pops index 1 while more than two messages remain and the
estimated token count exceeds `settings.max_tokens` (a configuration value,
taken here as the parameter `max_tokens`).  Each iteration shortens the list
by one, so fuel `messages.length` suffices. -/

def truncateF (max_tokens : Nat) : Nat → List Msg → List Msg
  | 0, messages => messages
  | fuel + 1, messages =>
    if messages.length > 2 then
      if count_messages_tokens messages ≤ max_tokens then messages
      else truncateF max_tokens fuel (messages.eraseIdx 1)
    else messages

def truncate_history (max_tokens : Nat) (messages : List Msg) : List Msg :=
  truncateF max_tokens messages.length messages

/-! ## The identity regex `Source:\s+([^\(]+)\s+\(Chunk\s+(\d+)`

`_extract_context_identifiers` (`services/chat.py:89-110`) and the block
filter of `_update_knowledge_base` (`services/chat.py:152`) use this pattern
with `re.findall` / `re.search`.  Python's backtracking semantics for this
particular pattern are deterministic and are reproduced here:

* a match at a position requires the literal `Source:`, then (because neither
  `\s` nor `[^\(]` can consume `'('`) the text `w` up to the *first* `'('`
  must factor as `\s+ ([^\(]+) \s+`, which holds iff `w` has length ≥ 3,
  starts with whitespace and ends with whitespace;
* by greediness the first `\s+` takes the maximal whitespace run of `w`
  (capped so that group 1 and the second `\s+` stay non-empty) and the second
  `\s+` takes exactly the last character of `w`, so group 1 is `w` without
  that leading run and without its last character;
* after the `'('` the literal `Chunk`, a non-empty whitespace run and a
  maximal non-empty digit run (group 2) must follow;
* `re.search` returns the leftmost such match, `re.findall` scans
  left-to-right, resuming after each match's end. -/

def srcLit : List Char := "Source:".data

def chunkLit : List Char := "Chunk".data

def headIsSpace (w : List Char) : Bool :=
  match w with
  | [] => false
  | c :: _ => pyIsSpace c

def lastIsSpace (w : List Char) : Bool := headIsSpace w.reverse

/-- Group 1 of the pattern, as a function of the text `w` strictly between
`Source:` and the first `'('`. -/
def group1F (w : List Char) : List Char :=
  (w.drop (min (w.takeWhile pyIsSpace).length (w.length - 2))).dropLast

/-- An identity pair `(filename, chunk_idx)` as built by the Python code:
`(match.group(1).strip(), int(match.group(2)))`. -/
abbrev CtxId := List Char × Nat

/-- Match of the identity pattern anchored at the start of `x`; returns the
identity pair and the rest of the string after the match. -/
def matchHead (x : List Char) : Option (CtxId × List Char) :=
  if srcLit.isPrefixOf x then
    let t := x.drop 7
    match t.dropWhile (fun c => c ≠ '(') with
    | [] => none
    | _ :: r2 =>
      if chunkLit.isPrefixOf r2 then
        let w := t.takeWhile (fun c => c ≠ '(')
        let r3 := r2.drop 5
        let ws1 := r3.takeWhile pyIsSpace
        let r4 := r3.dropWhile pyIsSpace
        let ds := r4.takeWhile pyIsDigit
        let r5 := r4.dropWhile pyIsDigit
        if 3 ≤ w.length && headIsSpace w && lastIsSpace w &&
            !ws1.isEmpty && !ds.isEmpty then
          some ((pyStrip (group1F w), natOfDigits ds), r5)
        else none
      else none
  else none

/-- Leftmost match of the identity pattern anywhere in `x` (`re.search`). -/
def searchStep : List Char → Option (CtxId × List Char)
  | [] => none
  | c :: cs =>
    match matchHead (c :: cs) with
    | some r => some r
    | none => searchStep cs

/-- The identity pair of the leftmost match, as used on each candidate block
in `_update_knowledge_base` (`re.search` + groups). -/
def searchId (x : List Char) : Option CtxId := (searchStep x).map Prod.fst

/-- `re.findall` of the identity pattern (fueled). -/
def idsF : Nat → List Char → List CtxId
  | 0, _ => []
  | fuel + 1, x =>
    match searchStep x with
    | none => []
    | some (i, rest) => i :: idsF fuel rest

/-- `_extract_context_identifiers` (`services/chat.py:89-110`): the set of
identity pairs found by `re.findall`, represented by the list of matches in
scan order (the Python code only ever tests membership in the set). -/
def extract_context_identifiers (x : List Char) : List CtxId :=
  idsF (x.length + 1) x

/-- The suffix remaining when the `re.findall` scan stops (fueled). -/
def scanTailF : Nat → List Char → List Char
  | 0, x => x
  | fuel + 1, x =>
    match searchStep x with
    | none => x
    | some (_, rest) => scanTailF fuel rest

def scanTail (x : List Char) : List Char := scanTailF (x.length + 1) x

/-- The head of `y` (if any) is not a digit; appending such a `y` cannot
extend the final digit group of a match. -/
def nonDigitHead (y : List Char) : Prop :=
  ∀ c, y.head? = some c → pyIsDigit c = false

/-- No character of `l` is `'('`. -/
def parenFree (l : List Char) : Prop := ∀ c ∈ l, c ≠ '('

/-- No occurrence of `pat` starts inside `x` when `y` is appended after it:
every non-empty suffix `x'` of `x` fails to begin with `pat`, even continuing
into `y`. -/
def noStartIn (pat x y : List Char) : Prop :=
  ∀ x', x' <:+ x → x' ≠ [] → ¬ pat.isPrefixOf (x' ++ y) = true


/-- Some occurrence of the literal `pat` inside `x`. -/
def hasOcc (x pat : List Char) : Prop :=
  ∃ l, pat.isPrefixOf (x.drop l) = true

/-- Explicit characterisation of a match of the identity pattern anchored at
the start of `x`: the decomposition into the `Source:` literal, the text `w`
up to the first `'('`, the `Chunk` literal, the whitespace run, the digit run
and the rest, with the side conditions forced by the regex. -/
def IsMatch (x : List Char) (f : List Char) (n : Nat) (rest : List Char) : Prop :=
  ∃ w ws1 ds,
    x = srcLit ++ w ++ '(' :: (chunkLit ++ ws1 ++ ds ++ rest) ∧
    (∀ c ∈ w, c ≠ '(') ∧ 3 ≤ w.length ∧
    headIsSpace w = true ∧ lastIsSpace w = true ∧
    ws1 ≠ [] ∧ (∀ c ∈ ws1, pyIsSpace c = true) ∧
    ds ≠ [] ∧ (∀ c ∈ ds, pyIsDigit c = true) ∧
    (∀ c, rest.head? = some c → pyIsDigit c = false) ∧
    f = pyStrip (group1F w) ∧ n = natOfDigits ds

/-! ## `ChatService._update_knowledge_base` (`services/chat.py:112-181`) -/

def kbOpenTag : List Char := "<knowledge_base>".data

def kbCloseTag : List Char := "</knowledge_base>".data

/-- The context-block delimiter `"=" * 80`. -/
def delim80 : List Char := List.replicate 80 '='

/-- The `for part in context_parts` loop of `_update_knowledge_base`
(`services/chat.py:146-163`): strip each part, skip empty ones, extract the
identity of the first `Source: ... (Chunk N` header via `re.search`, keep the
part only if its identity is not already known, and record it. -/
def processParts : List (List Char) → List CtxId → List (List Char) × List CtxId
  | [], existing => ([], existing)
  | p :: rest, existing =>
    let part := pyStrip p
    if part.isEmpty then processParts rest existing
    else
      match searchId part with
      | none => processParts rest existing
      | some i =>
        if i ∈ existing then processParts rest existing
        else
          let r := processParts rest (existing ++ [i])
          (part :: r.1, r.2)

/-- `_update_knowledge_base(system_content, new_context)`. -/
def update_knowledge_base (system_content new_context : List Char) : List Char :=
  match pyFind system_content kbOpenTag, pyFind system_content kbCloseTag with
  | some kb_start, some kb_end =>
    let kb_content := pyStrip (pySlice system_content (kb_start + 16) kb_end)
    let existing := extract_context_identifiers kb_content
    let context_parts := pySplit delim80 new_context
    let blocks := (processParts context_parts existing).1
    if blocks.isEmpty then system_content
    else
      let new_contexts_text :=
        ("\n\n".data) ++ List.intercalate (delim80 ++ "\n\n".data) blocks
      let updated_kb :=
        if kb_content.isEmpty then pyStrip new_contexts_text
        else kb_content ++ new_contexts_text
      system_content.take kb_start ++ kbOpenTag ++ ('\n' :: updated_kb) ++
        ('\n' :: kbCloseTag) ++ system_content.drop (kb_end + 17)
  | _, _ =>
    system_content ++ ("\n\n<knowledge_base>\n".data) ++ new_context ++
      ("\n</knowledge_base>".data)

/-- The identity pairs extractable from the knowledge-base region of a system
message, located and parsed exactly as `_update_knowledge_base` does
(`str.find` on both sentinels, slice, strip, then
`_extract_context_identifiers`); no region yields the empty set. -/
def kb_region_ids (content : List Char) : List CtxId :=
  match pyFind content kbOpenTag, pyFind content kbCloseTag with
  | some i, some j => extract_context_identifiers (pyStrip (pySlice content (i + 16) j))
  | _, _ => []

/-- The prefix of a system message before the first `<knowledge_base>`
sentinel, when that sentinel is present. -/
def kb_before (content : List Char) : Option (List Char) :=
  (pyFind content kbOpenTag).map content.take

/-- The suffix of a system message after the first `</knowledge_base>`
sentinel, when that sentinel is present. -/
def kb_after (content : List Char) : Option (List Char) :=
  (pyFind content kbCloseTag).map (fun j => content.drop (j + 17))

/-! ## Named pieces of the merge result

`kb_blocks`, `kb_newtext` and `kb_updated` name the values of the local
variables `new_context_blocks`, `new_contexts_text` and `updated_kb` of
`_update_knowledge_base` when both sentinels were found at `i` and `j`. -/

def kb_blocks (S C : List Char) (i j : Nat) : List (List Char) :=
  (processParts (pySplit delim80 C)
    (extract_context_identifiers (pyStrip (pySlice S (i + 16) j)))).1

def kb_newtext (S C : List Char) (i j : Nat) : List Char :=
  ("\n\n").data ++ List.intercalate (delim80 ++ ("\n\n").data) (kb_blocks S C i j)

def kb_updated (S C : List Char) (i j : Nat) : List Char :=
  if (pyStrip (pySlice S (i + 16) j)).isEmpty then pyStrip (kb_newtext S C i j)
  else pyStrip (pySlice S (i + 16) j) ++ kb_newtext S C i j

/-! ## `QueryRewriterAgent` (`services/query_rewriter.py`) -/

/-- ASCII case folding, the effect of `re.IGNORECASE` on ASCII text. -/
def asciiLower (c : Char) : Char :=
  if 'A' ≤ c ∧ c ≤ 'Z' then Char.ofNat (c.toNat + 32) else c

/-- Case-insensitive literal prefix match; returns the remainder. -/
def ciPrefixDrop : List Char → List Char → Option (List Char)
  | [], l => some l
  | _ :: _, [] => none
  | w :: ws, c :: cs =>
    if asciiLower c = asciiLower w then ciPrefixDrop ws cs else none

/-- The mandatory tail `[\d]+[\.\)\:\-]\s*` of the enumeration-marker regex
of `_parse_queries` (`services/query_rewriter.py:210`): a non-empty maximal
digit run, one punctuation character, then a maximal whitespace run. -/
def enumTailMatch (l : List Char) : Option (List Char) :=
  let ds := l.takeWhile pyIsDigit
  if ds.isEmpty then none
  else
    match l.dropWhile pyIsDigit with
    | [] => none
    | c :: rest =>
      if c = '.' || c = ')' || c = ':' || c = '-' then
        some (rest.dropWhile pyIsSpace)
      else none

/-- One alternative of the optional word group `(Query|Question|Expansion)`
followed by `\s*` and the mandatory tail. -/
def markerAfterWord (word l : List Char) : Option (List Char) :=
  (ciPrefixDrop word l).bind (fun r => enumTailMatch (r.dropWhile pyIsSpace))

/-- `re.sub(r'^(Query\s*|Question\s*|Expansion\s*)?[\d]+[\.\)\:\-]\s*', '',
line, flags=re.IGNORECASE)`: the anchored marker (if it matches, trying the
word alternatives and then the empty group) is removed once; the three word
literals diverge pairwise, so at most one alternative can apply and the
greedy runs are deterministic. -/
def stripEnumMarker (l : List Char) : List Char :=
  match markerAfterWord ("Query".data) l <|> markerAfterWord ("Question".data) l <|>
      markerAfterWord ("Expansion".data) l <|> enumTailMatch l with
  | some r => r
  | none => l

/-- `_parse_queries` (`services/query_rewriter.py:197-228`). -/
def parse_queries (content : List Char) : List (List Char) :=
  let lines := pySplit ("\n".data) (pyStrip content)
  let queries := lines.filterMap (fun line =>
    let line := pyStrip line
    if line.isEmpty then none
    else
      let cleaned := pyStrip (stripEnumMarker line)
      let word_count := (wsSplit cleaned).length
      if ¬cleaned.isEmpty ∧ 15 ≤ word_count ∧ cleaned.getLast? = some '?' then
        some cleaned
      else none)
  if queries.length < 3 then
    if queries.length = 0 then [] else queries
  else if queries.length > 3 then queries.take 3
  else queries

/-- `_rewrite_query` (`services/query_rewriter.py:152-195`): the LLM call's
outcome (response content, or the message of a raised exception) is the
explicit argument `llm`. -/
def rewrite_query (llm : Except (List Char) (List Char)) (original : List Char) :
    List (List Char) :=
  if (wsSplit original).length ≤ 2 then [original]
  else
    match llm with
    | .error _ => [original]
    | .ok content =>
      let queries := parse_queries (pyStrip content)
      if queries.length < 2 then [original]
      else
        let queries := if queries.length < 3 then queries ++ [original] else queries
        queries.take 3

/-- `rewrite` (`services/query_rewriter.py:235-259`): the LangGraph pipeline
is `rewrite → format_output`, where `format_output` copies
`rewritten_queries` to `final_output`; a failure of the graph invocation
itself (argument `graph_fail`) is caught and falls back to `[query]`. -/
def rewrite (graph_fail : Bool) (llm : Except (List Char) (List Char))
    (query : List Char) : List (List Char) :=
  if graph_fail then [query] else rewrite_query llm query

/-- The loop of `_init_llm` (`services/query_rewriter.py:108-134`).  `test`
gives each model's trial-call outcome: `none` for success, `some msg` for an
exception with text `msg`; `cur` is the value of `self.llm` on entering the
iteration.  Each iteration first assigns the client for the current model
(`self.llm = ChatOpenAI(model=model, ...)`, line 110) and only then runs the
test call.  On success the loop breaks with that model kept; on an error
whose text contains `"No endpoints found for"` the loop `continue`s — the
pre-test assignment is *not* reset, so the model stays configured until the
next iteration overwrites it; on any other error the client is rebuilt with
this very model (line 127) and the loop breaks. -/
def init_llm_loop (test : List Char → Option (List Char)) :
    List (List Char) → Option (List Char) → Option (List Char)
  | [], cur => cur
  | m :: rest, _ =>
    match test m with
    | none => some m
    | some msg =>
      if (pyFind msg ("No endpoints found for".data)).isSome then
        init_llm_loop test rest (some m)
      else some m

/-- `_init_llm` (`services/query_rewriter.py:101-135`): the model the
rewriter ends up configured with, starting from the constructor's
`self.llm = None` (`query_rewriter.py:47`).  A chain exhausted by
`"No endpoints found for"` failures leaves the *last* candidate configured
(its pre-test assignment survives the final `continue`); no error is ever
raised. -/
def init_llm (models : List (List Char))
    (test : List Char → Option (List Char)) : Option (List Char) :=
  init_llm_loop test models none

/-- The acceptance criterion of claim C6, stated as the claim words it: a
line is accepted as a query iff, after stripping leading enumeration
markers, it ends with `?` and has at least 15 whitespace-separated words. -/
def acceptedLine (line : List Char) : Option (List Char) :=
  let cleaned := pyStrip (stripEnumMarker (pyStrip line))
  if 15 ≤ (wsSplit cleaned).length ∧ cleaned.getLast? = some '?' then some cleaned
  else none

/-- The accepted lines of an LLM response, per claim C6. -/
def acceptedLines (content : List Char) : List (List Char) :=
  (pySplit ("\n".data) (pyStrip content)).filterMap acceptedLine

/-- The fallback protocol exactly as the spec/claim C4 words it (refinement
model to compare `_init_llm` against): on a "no endpoint" failure the next
model is attempted; on any other failure that error is surfaced immediately;
if the chain is exhausted, the last error is surfaced. -/
def spec_fallback : List (List Char) → (List Char → Option (List Char)) →
    Except (List Char) (List Char)
  | [], _ => .error []
  | m :: rest, test =>
    match test m with
    | none => .ok m
    | some msg =>
      if (pyFind msg ("No endpoints found for".data)).isSome then
        match rest with
        | [] => .error msg
        | _ => spec_fallback rest test
      else .error msg

/-! ## `services/rag.py` -/

/-- A retrieval hit `(content, filename, chunk_index, score)`.  The score is
kept as its rendered 4-decimal text (`f"{score:.4f}"`): floating-point
arithmetic is outside the embedding, and no control flow depends on it. -/
structure Hit where
  content : List Char
  filename : List Char
  chunk_index : Nat
  scoreText : List Char
deriving DecidableEq, Repr

/-- One block of `retrieve` (`services/rag.py:77-79`):
`f"[Context {idx}] Source: {filename} (Chunk {chunk_idx}, Relevance Score: {score:.4f})\n{content}"`. -/
def format_block (idx : Nat) (h : Hit) : List Char :=
  ("[Context ".data) ++ (Nat.repr idx).data ++ ("] Source: ".data) ++ h.filename ++
    (" (Chunk ".data) ++ (Nat.repr h.chunk_index).data ++
    (", Relevance Score: ".data) ++ h.scoreText ++ (")".data) ++
    ('\n' :: h.content)

/-- The formatting tail of `retrieve` (`services/rag.py:76-83`): hits become
enumerated context blocks joined by `"\n\n"`, wrapped by the 80-`=`
delimiter; no deduplication of any kind is performed. -/
def retrieve_format (hits : List Hit) : List Char :=
  let context_blocks := hits.enum.map (fun p => format_block (p.1 + 1) p.2)
  ("\n\n".data) ++ delim80 ++
    List.intercalate ("\n\n".data) context_blocks ++ ("\n\n".data) ++ delim80

/-- First-occurrence deduplication by raw content string. -/
def dedupByContent : List Hit → List (List Char) → List Hit
  | [], _ => []
  | h :: rest, seen =>
    if h.content ∈ seen then dedupByContent rest seen
    else h :: dedupByContent rest (h.content :: seen)

/-- Modelled from the spec: `get_context`, imported by `services/chat.py`
from `services.rag`, is absent from the source tree (only its caller
exists).  Per §4.2 of the spec it issues one retrieval per query variant,
collects the results of the non-failing variants in order (a failure on one
variant is caught and logged and retrieval continues), deduplicates by raw
content string as results stream in, and never raises.  `variant_results`
is the per-variant retrieval outcome. -/
def get_context (variant_results : List (Except (List Char) (List Hit))) : List Hit :=
  dedupByContent
    ((variant_results.filterMap (fun r =>
      match r with
      | .ok hs => some hs
      | .error _ => none)).flatten) []

/-! ## `ChatService.chat` (`services/chat.py:183-250`) -/

def init_system_prompt : Msg :=
  ⟨"system".data,
    ("You are strictly bound to reply based on the relevant context. If relevant context is empty, say that you're sorry and you cannot answer this question.\n\n<knowledge_base>\n</knowledge_base>").data⟩

/-- One chat turn.  `stored` and `meta_updated_at` are the session's
persisted history and `updated_at` timestamp before the turn; `rag_context`
is the retrieval outcome (`get_context`); `llm` maps the prepared message
list to the completion call's outcome.  Returns
`(reply, stored history after the turn, updated_at after the turn)`.
`messages = history.copy()` is a shallow copy, so the knowledge-base update
of `messages[0]` also mutates `history[0]`; truncation builds the LLM input
only and does not affect what is saved. -/
def chat (stored : List Msg) (meta_updated_at : Option Nat)
    (user_message : List Char) (include_rag : Bool) (rag_context : List Char)
    (llm : List Msg → Except (List Char) (List Char)) (max_tokens : Nat)
    (now : Nat) : List Char × List Msg × Option Nat :=
  let history := if stored.isEmpty then [init_system_prompt] else stored
  let history := history ++ [⟨"user".data, user_message⟩]
  let history :=
    if include_rag ∧ ¬rag_context.isEmpty then
      match history with
      | m0 :: rest =>
        { m0 with content := update_knowledge_base m0.content rag_context } :: rest
      | [] => []
    else history
  let messages := truncate_history max_tokens history
  match llm messages with
  | .ok assistant =>
    (assistant, history ++ [⟨"assistant".data, assistant⟩], some now)
  | .error e => (("Error calling LLM: ".data) ++ e, stored, meta_updated_at)

/-! # Theorems -/

/-! ## Character-class facts -/

theorem space_not_digit {c : Char} (h : pyIsSpace c = true) : pyIsDigit c = false := by
  simp only [pyIsSpace, Bool.or_eq_true, decide_eq_true_eq] at h
  rcases h with ((((rfl | rfl) | rfl) | rfl) | rfl) | rfl <;> decide

theorem digit_not_space {c : Char} (h : pyIsDigit c = true) : pyIsSpace c = false := by
  cases hs : pyIsSpace c with
  | false => rfl
  | true => rw [space_not_digit hs] at h; simp at h

theorem space_ne_paren {c : Char} (h : pyIsSpace c = true) : c ≠ '(' := by
  rintro rfl; revert h; decide

theorem digit_ne_paren {c : Char} (h : pyIsDigit c = true) : c ≠ '(' := by
  rintro rfl; revert h; decide

/-! ## List helpers -/

/-- Splitting at a distinguished element absent from both left parts is
unambiguous. -/
theorem append_split_unique {p : Char} :
    ∀ {a₁ a₂ b₁ b₂ : List Char}, a₁ ++ p :: b₁ = a₂ ++ p :: b₂ →
      (∀ c ∈ a₁, c ≠ p) → (∀ c ∈ a₂, c ≠ p) → a₁ = a₂ ∧ b₁ = b₂ := by
  intro a₁
  induction a₁ with
  | nil =>
    intro a₂ b₁ b₂ h _ h₂
    cases a₂ with
    | nil => simpa using h
    | cons x t =>
      simp only [List.nil_append, List.cons_append, List.cons.injEq] at h
      exact absurd h.1.symm (h₂ x (by simp))
  | cons x t ih =>
    intro a₂ b₁ b₂ h h₁ h₂
    cases a₂ with
    | nil =>
      simp only [List.nil_append, List.cons_append, List.cons.injEq] at h
      exact absurd h.1 (h₁ x (by simp))
    | cons y t₂ =>
      simp only [List.cons_append, List.cons.injEq] at h
      obtain ⟨rfl, h'⟩ := h
      obtain ⟨rfl, rfl⟩ := ih h' (fun c hc => h₁ c (by simp [hc]))
        (fun c hc => h₂ c (by simp [hc]))
      exact ⟨rfl, rfl⟩

/-- Two decompositions of one list into a `P`-pure part followed by a part
whose head fails `P` agree. -/
theorem pure_align {P : Char → Bool} :
    ∀ {a₁ a₂ b₁ b₂ : List Char}, a₁ ++ b₁ = a₂ ++ b₂ →
      (∀ c ∈ a₁, P c = true) → (∀ c ∈ a₂, P c = true) →
      (∀ c, b₁.head? = some c → P c = false) →
      (∀ c, b₂.head? = some c → P c = false) → a₁ = a₂ ∧ b₁ = b₂ := by
  intro a₁
  induction a₁ with
  | nil =>
    intro a₂ b₁ b₂ h _ ha₂ hb₁ _
    cases a₂ with
    | nil => simpa using h
    | cons y t₂ =>
      simp only [List.nil_append] at h
      subst h
      have := hb₁ y (by simp)
      rw [ha₂ y (by simp)] at this
      exact absurd this (by simp)
  | cons x t ih =>
    intro a₂ b₁ b₂ h ha₁ ha₂ hb₁ hb₂
    cases a₂ with
    | nil =>
      simp only [List.nil_append] at h
      subst h
      have := hb₂ x (by simp)
      rw [ha₁ x (by simp)] at this
      exact absurd this (by simp)
    | cons y t₂ =>
      simp only [List.cons_append, List.cons.injEq] at h
      obtain ⟨rfl, h'⟩ := h
      obtain ⟨rfl, rfl⟩ := ih h' (fun c hc => ha₁ c (by simp [hc]))
        (fun c hc => ha₂ c (by simp [hc])) hb₁ hb₂
      exact ⟨rfl, rfl⟩

/-! ## Characterisation of the anchored regex match -/

theorem matchHead_of_parts {w ws1 ds rest : List Char}
    (hw : ∀ c ∈ w, c ≠ '(') (hwlen : 3 ≤ w.length)
    (hh : headIsSpace w = true) (hl : lastIsSpace w = true)
    (hws1ne : ws1 ≠ []) (hws1 : ∀ c ∈ ws1, pyIsSpace c = true)
    (hdsne : ds ≠ []) (hds : ∀ c ∈ ds, pyIsDigit c = true)
    (hrest : ∀ c, rest.head? = some c → pyIsDigit c = false) :
    matchHead (srcLit ++ (w ++ '(' :: (chunkLit ++ (ws1 ++ (ds ++ rest))))) =
      some ((pyStrip (group1F w), natOfDigits ds), rest) := by
  have hpre : srcLit.isPrefixOf
      (srcLit ++ (w ++ '(' :: (chunkLit ++ (ws1 ++ (ds ++ rest))))) = true := by
    simp [List.isPrefixOf_iff_prefix]
  have hdropsrc :
      (srcLit ++ (w ++ '(' :: (chunkLit ++ (ws1 ++ (ds ++ rest))))).drop 7 =
        w ++ '(' :: (chunkLit ++ (ws1 ++ (ds ++ rest))) :=
    List.drop_left' rfl
  have hwB : ∀ c ∈ w, (fun c => decide (c ≠ '(')) c = true := by
    intro c hc
    simp [hw c hc]
  have hdropw :
      (w ++ '(' :: (chunkLit ++ (ws1 ++ (ds ++ rest)))).dropWhile
          (fun c => decide (c ≠ '(')) =
        '(' :: (chunkLit ++ (ws1 ++ (ds ++ rest))) := by
    rw [List.dropWhile_append_of_pos hwB, List.dropWhile_cons_of_neg (by simp)]
  have htakew :
      (w ++ '(' :: (chunkLit ++ (ws1 ++ (ds ++ rest)))).takeWhile
          (fun c => decide (c ≠ '(')) = w := by
    rw [List.takeWhile_append_of_pos hwB, List.takeWhile_cons_of_neg (by simp),
      List.append_nil]
  have hchunkpre : chunkLit.isPrefixOf (chunkLit ++ (ws1 ++ (ds ++ rest))) = true := by
    simp [List.isPrefixOf_iff_prefix]
  have hdropchunk : (chunkLit ++ (ws1 ++ (ds ++ rest))).drop 5 = ws1 ++ (ds ++ rest) :=
    List.drop_left' rfl
  have hdshead : ∀ c ∈ (ds ++ rest).head?.toList, pyIsSpace c = false := by
    intro c hc
    cases ds with
    | nil => exact absurd rfl hdsne
    | cons d t =>
      simp only [List.cons_append, List.head?_cons, Option.toList_some,
        List.mem_singleton] at hc
      subst hc
      exact digit_not_space (hds c (by simp))
  have htakews1 : (ws1 ++ (ds ++ rest)).takeWhile pyIsSpace = ws1 := by
    rw [List.takeWhile_append_of_pos hws1]
    cases ds with
    | nil => exact absurd rfl hdsne
    | cons d t =>
      rw [List.cons_append, List.takeWhile_cons_of_neg (by
        simp [digit_not_space (hds d (by simp))]), List.append_nil]
  have hdropws1 : (ws1 ++ (ds ++ rest)).dropWhile pyIsSpace = ds ++ rest := by
    rw [List.dropWhile_append_of_pos hws1]
    cases ds with
    | nil => exact absurd rfl hdsne
    | cons d t =>
      rw [List.cons_append, List.dropWhile_cons_of_neg (by
        simp [digit_not_space (hds d (by simp))])]
  have htakeds : (ds ++ rest).takeWhile pyIsDigit = ds := by
    rw [List.takeWhile_append_of_pos hds]
    cases rest with
    | nil => simp
    | cons r t =>
      rw [List.takeWhile_cons_of_neg (by simp [hrest r rfl]), List.append_nil]
  have hdropds : (ds ++ rest).dropWhile pyIsDigit = rest := by
    rw [List.dropWhile_append_of_pos hds]
    cases rest with
    | nil => simp
    | cons r t =>
      rw [List.dropWhile_cons_of_neg (by simp [hrest r rfl])]
  rw [matchHead, if_pos hpre]
  simp only [hdropsrc, hdropw, htakew, hdropchunk, htakews1, hdropws1, htakeds,
    hdropds, if_pos hchunkpre]
  rw [if_pos]
  simp only [Bool.and_eq_true, decide_eq_true_eq, List.isEmpty_iff,
    Bool.not_eq_true']
  refine ⟨⟨⟨⟨hwlen, hh⟩, hl⟩, ?_⟩, ?_⟩
  · simp [List.isEmpty_iff, hws1ne]
  · simp [List.isEmpty_iff, hdsne]

theorem matchHead_eq_some_iff {x f : List Char} {n : Nat} {rest : List Char} :
    matchHead x = some ((f, n), rest) ↔ IsMatch x f n rest := by
  constructor
  · intro h
    simp only [matchHead] at h
    split at h
    case isFalse => simp at h
    case isTrue hpre =>
      rw [List.isPrefixOf_iff_prefix] at hpre
      obtain ⟨t, ht⟩ := hpre
      subst ht
      rw [List.drop_left' (show srcLit.length = 7 from rfl)] at h
      split at h
      next heq => simp at h
      next par r2 heq =>
        have h5 := List.head?_dropWhile_not (fun c => decide (c ≠ '(')) t
        rw [heq] at h5
        have hpar : par = '(' := by simpa using h5
        subst hpar
        have ht2 : t.takeWhile (fun c => decide (c ≠ '(')) ++ '(' :: r2 = t := by
          rw [← heq]
          exact List.takeWhile_append_dropWhile _ _
        split at h
        case isFalse => simp at h
        case isTrue hchunk =>
          rw [List.isPrefixOf_iff_prefix] at hchunk
          obtain ⟨r3, hr3⟩ := hchunk
          split at h
          case isFalse => simp at h
          case isTrue hguard =>
            rw [Option.some.injEq, Prod.mk.injEq, Prod.mk.injEq] at h
            obtain ⟨⟨hf, hn⟩, hrest⟩ := h
            simp only [Bool.and_eq_true, decide_eq_true_eq,
              Bool.not_eq_true'] at hguard
            subst hr3
            have hd5 : (chunkLit ++ r3).drop 5 = r3 := List.drop_left' rfl
            simp only [hd5] at hrest hn hguard
            refine ⟨t.takeWhile (fun c => decide (c ≠ '(')),
              r3.takeWhile pyIsSpace,
              (r3.dropWhile pyIsSpace).takeWhile pyIsDigit,
              ?_, ?_, ?_, ?_, ?_, ?_, ?_, ?_, ?_, ?_, hf.symm, hn.symm⟩
            · conv_lhs => rw [← ht2]
              rw [← hrest]
              simp only [List.append_assoc, List.cons_append]
              rw [List.takeWhile_append_dropWhile, List.takeWhile_append_dropWhile]
            · intro c hc
              simpa using List.mem_takeWhile_imp hc
            · exact hguard.1.1.1.1
            · exact hguard.1.1.1.2
            · exact hguard.1.1.2
            · intro e
              rw [e] at hguard
              simp at hguard
            · intro c hc
              exact List.mem_takeWhile_imp hc
            · intro e
              rw [e] at hguard
              simp at hguard
            · intro c hc
              exact List.mem_takeWhile_imp hc
            · rw [← hrest]
              intro c hc
              have h6 := List.head?_dropWhile_not pyIsDigit (r3.dropWhile pyIsSpace)
              rw [hc] at h6
              exact h6
  · rintro ⟨w, ws1, ds, rfl, hw, hwlen, hh, hl, hws1ne, hws1, hdsne, hds, hrest,
      rfl, rfl⟩
    simpa using matchHead_of_parts hw hwlen hh hl hws1ne hws1 hdsne hds hrest

/-! ## Appending text on the right preserves and never corrupts matches -/

theorem matchHead_append {x y f : List Char} {n : Nat} {rest : List Char}
    (h : matchHead x = some ((f, n), rest))
    (hy : rest = [] → nonDigitHead y) :
    matchHead (x ++ y) = some ((f, n), rest ++ y) := by
  rw [matchHead_eq_some_iff] at h ⊢
  obtain ⟨w, ws1, ds, rfl, hw, hwlen, hh, hl, hws1ne, hws1, hdsne, hds, hrest,
    hf, hn⟩ := h
  refine ⟨w, ws1, ds, ?_, hw, hwlen, hh, hl, hws1ne, hws1, hdsne, hds, ?_, hf, hn⟩
  · simp [List.append_assoc]
  · intro c hc
    cases rest with
    | nil => exact hy rfl c hc
    | cons r tl =>
      simp only [List.cons_append, List.head?_cons, Option.some.injEq] at hc
      subst hc
      exact hrest r rfl

theorem searchStep_exists_split {z : List Char} {i : CtxId} {rest : List Char}
    (h : searchStep z = some (i, rest)) :
    ∃ u v, z = u ++ v ∧ matchHead v = some (i, rest) := by
  induction z with
  | nil => simp [searchStep] at h
  | cons c cs ih =>
    rw [searchStep] at h
    cases hm : matchHead (c :: cs) with
    | some r =>
      rw [hm] at h
      cases h
      exact ⟨[], c :: cs, rfl, hm⟩
    | none =>
      rw [hm] at h
      obtain ⟨u, v, rfl, hv⟩ := ih h
      exact ⟨c :: u, v, rfl, hv⟩

theorem parenFree_count {l : List Char} (h : parenFree l) : l.count '(' = 0 :=
  List.count_eq_zero.mpr (fun hm => h '(' hm rfl)

theorem parenFree_of_count {l : List Char} (h : l.count '(' = 0) : parenFree l := by
  intro c hc hceq
  subst hceq
  exact List.count_eq_zero.mp h hc

theorem parenFree_of_all {l : List Char}
    (h : l.all (fun c => decide (c ≠ '(')) = true) : parenFree l := by
  intro c hc
  have := List.all_eq_true.mp h c hc
  simpa using this

theorem srcLit_parenFree : parenFree srcLit := parenFree_of_all (by decide)

theorem chunkLit_parenFree : parenFree chunkLit := parenFree_of_all (by decide)

/-- Failure of the anchored match is permanent under appending, provided a
match exists somewhere later in the string: such a failure is witnessed
entirely inside the string and cannot be repaired by more text. -/
theorem matchHead_append_none {x y : List Char}
    (hx : matchHead x = none)
    (hinner : ∃ u v i r₀, x = u ++ v ∧ matchHead v = some (i, r₀)) :
    matchHead (x ++ y) = none := by
  cases hmxy : matchHead (x ++ y) with
  | none => rfl
  | some pr =>
    exfalso
    obtain ⟨⟨f', n'⟩, rest'⟩ := pr
    rw [matchHead_eq_some_iff] at hmxy
    obtain ⟨w', ws1', ds', hxy, hw', hwlen', hh', hl', hws1ne', hws1', hdsne',
      hds', hrest', -, -⟩ := hmxy
    obtain ⟨u, v, ⟨f₀, n₀⟩, r₀, rfl, hv⟩ := hinner
    rw [matchHead_eq_some_iff] at hv
    obtain ⟨w, ws1, ds, hveq, hw, hwlen, hh, hl, hws1ne, hws1, hdsne, hds,
      hr₀, -, -⟩ := hv
    have hxy2 : (u ++ v) ++ y =
        (srcLit ++ w' ++ '(' :: (chunkLit ++ ws1' ++ ds')) ++ rest' := by
      rw [hxy]
      simp [List.append_assoc]
    have hAfree : parenFree (srcLit ++ w') := by
      intro c hc
      rcases List.mem_append.mp hc with hc | hc
      · exact srcLit_parenFree c hc
      · exact hw' c hc
    have hBfree : parenFree (chunkLit ++ ws1' ++ ds') := by
      intro c hc
      rcases List.mem_append.mp hc with hc | hc
      · rcases List.mem_append.mp hc with hc | hc
        · exact chunkLit_parenFree c hc
        · exact space_ne_paren (hws1' c hc)
      · exact digit_ne_paren (hds' c hc)
    have e1 : srcLit.count '(' = 0 := parenFree_count srcLit_parenFree
    have e2 : w'.count '(' = 0 := parenFree_count hw'
    have e3 : chunkLit.count '(' = 0 := parenFree_count chunkLit_parenFree
    have e4 : ws1'.count '(' = 0 :=
      parenFree_count (fun c hc => space_ne_paren (hws1' c hc))
    have e5 : ds'.count '(' = 0 :=
      parenFree_count (fun c hc => digit_ne_paren (hds' c hc))
    have ew : w.count '(' = 0 := parenFree_count hw
    rcases List.append_eq_append_iff.mp hxy2 with ⟨a', hM, hy'⟩ | ⟨c', hxM, hr'⟩
    · -- the outer match extends past the end of `x = u ++ v`
      have hMc := congrArg (List.count '(') hM
      have hvc := congrArg (List.count '(') hveq
      simp only [List.count_append, List.count_cons_self, e1, e2, e3, e4, e5,
        ew] at hMc hvc
      have hu0 : u.count '(' = 0 := by omega
      have huA : (u ++ srcLit ++ w = srcLit ++ w') ∧
          ((chunkLit ++ ws1 ++ ds ++ r₀) ++ a' = chunkLit ++ ws1' ++ ds') := by
        apply append_split_unique (p := '(')
        · rw [hveq] at hM
          simp only [List.append_assoc, List.cons_append] at hM ⊢
          exact hM.symm
        · intro c hc
          rcases List.mem_append.mp hc with hc | hc
          · rcases List.mem_append.mp hc with hc | hc
            · exact parenFree_of_count hu0 c hc
            · exact srcLit_parenFree c hc
          · exact hw c hc
        · exact hAfree
      have htail : ws1 ++ (ds ++ (r₀ ++ a')) = ws1' ++ ds' := by
        have h3 := huA.2
        simp only [List.append_assoc] at h3
        exact List.append_cancel_left h3
      have hds_head : ∀ c, (ds ++ (r₀ ++ a')).head? = some c → pyIsSpace c = false := by
        cases ds with
        | nil => exact absurd rfl hdsne
        | cons d tl =>
          intro c hc
          simp only [List.cons_append, List.head?_cons, Option.some.injEq] at hc
          subst hc
          exact digit_not_space (hds d (by simp))
      have hds'_head : ∀ c, ds'.head? = some c → pyIsSpace c = false := by
        cases ds' with
        | nil => exact absurd rfl hdsne'
        | cons d tl =>
          intro c hc
          simp only [List.head?_cons, Option.some.injEq] at hc
          subst hc
          exact digit_not_space (hds' d (by simp))
      obtain ⟨hws1eq, hdseq⟩ := pure_align htail hws1 hws1' hds_head hds'_head
      cases hr0e : r₀ with
      | cons c0 tl =>
        have hcds' : c0 ∈ ds' := by
          rw [← hdseq, hr0e]
          simp
        have hdig := hds' c0 hcds'
        have hnd := hr₀ c0 (by rw [hr0e]; rfl)
        rw [hdig] at hnd
        exact absurd hnd (by simp)
      | nil =>
        -- the inner match ends exactly at the end of `x`, so `x` matches
        have hxmatch : matchHead (u ++ v) =
            some ((pyStrip (group1F w'), natOfDigits ds), []) := by
          rw [matchHead_eq_some_iff]
          refine ⟨w', ws1, ds, ?_, hw', hwlen', hh', hl', hws1ne, hws1, hdsne,
            hds, by simp, rfl, rfl⟩
          have hcong := congrArg
            (fun z => z ++ '(' :: (chunkLit ++ ws1 ++ ds ++ ([] : List Char))) huA.1
          simp only [List.append_assoc, List.cons_append] at hcong
          rw [hveq, hr0e]
          simp only [List.append_assoc, List.cons_append]
          exact hcong
        rw [hx] at hxmatch
        cases hxmatch
    · -- the outer match ends inside `x`, so `x` matches
      have hxmatch : matchHead (u ++ v) =
          some ((pyStrip (group1F w'), natOfDigits ds'), c') := by
        rw [matchHead_eq_some_iff]
        refine ⟨w', ws1', ds', ?_, hw', hwlen', hh', hl', hws1ne', hws1',
          hdsne', hds', ?_, rfl, rfl⟩
        · rw [hxM]
          simp [List.append_assoc, List.cons_append]
        · intro c hc
          apply hrest' c
          rw [hr']
          cases c' with
          | nil => simp at hc
          | cons a tl =>
            simp only [List.head?_cons, Option.some.injEq] at hc
            subst hc
            rfl
      rw [hx] at hxmatch
      cases hxmatch

theorem searchStep_append {x y : List Char} {i : CtxId} {rest : List Char}
    (h : searchStep x = some (i, rest)) (hy : rest = [] → nonDigitHead y) :
    searchStep (x ++ y) = some (i, rest ++ y) := by
  obtain ⟨f, n⟩ := i
  induction x with
  | nil => simp [searchStep] at h
  | cons c cs ih =>
    rw [searchStep] at h
    cases hm : matchHead (c :: cs) with
    | some r =>
      rw [hm] at h
      cases h
      have h2 := matchHead_append hm hy
      rw [List.cons_append] at h2 ⊢
      rw [searchStep, h2]
    | none =>
      rw [hm] at h
      have hnone : matchHead ((c :: cs) ++ y) = none := by
        apply matchHead_append_none hm
        obtain ⟨u, v, hcs, hv⟩ := searchStep_exists_split h
        exact ⟨c :: u, v, (f, n), rest, by rw [hcs]; rfl, hv⟩
      rw [List.cons_append] at hnone ⊢
      rw [searchStep, hnone]
      exact ih h

theorem searchStep_rest_length {z : List Char} {i : CtxId} {rest : List Char}
    (h : searchStep z = some (i, rest)) : rest.length < z.length := by
  obtain ⟨f, n⟩ := i
  obtain ⟨u, v, rfl, hv⟩ := searchStep_exists_split h
  rw [matchHead_eq_some_iff] at hv
  obtain ⟨w, ws1, ds, hveq, -, -, -, -, -, -, -, -, -, -, -⟩ := hv
  subst hveq
  have h7 : srcLit.length = 7 := rfl
  have h5 : chunkLit.length = 5 := rfl
  simp only [List.length_append, List.length_cons, h7, h5]
  omega

theorem idsF_fuel_irrel :
    ∀ (f₁ f₂ : Nat) (x : List Char), x.length < f₁ → x.length < f₂ →
      idsF f₁ x = idsF f₂ x := by
  intro f₁
  induction f₁ with
  | zero => intro f₂ x h₁ _; exact absurd h₁ (Nat.not_lt_zero _)
  | succ f ih =>
    intro f₂ x h₁ h₂
    match f₂ with
    | 0 => exact absurd h₂ (Nat.not_lt_zero _)
    | g + 1 =>
      rw [idsF, idsF]
      cases hs : searchStep x with
      | none => rfl
      | some pr =>
        obtain ⟨i, rest⟩ := pr
        have hlt := searchStep_rest_length hs
        simp only [ih g rest (by omega) (by omega)]

theorem scanTailF_fuel_irrel :
    ∀ (f₁ f₂ : Nat) (x : List Char), x.length < f₁ → x.length < f₂ →
      scanTailF f₁ x = scanTailF f₂ x := by
  intro f₁
  induction f₁ with
  | zero => intro f₂ x h₁ _; exact absurd h₁ (Nat.not_lt_zero _)
  | succ f ih =>
    intro f₂ x h₁ h₂
    match f₂ with
    | 0 => exact absurd h₂ (Nat.not_lt_zero _)
    | g + 1 =>
      rw [scanTailF, scanTailF]
      cases hs : searchStep x with
      | none => rfl
      | some pr =>
        obtain ⟨i, rest⟩ := pr
        have hlt := searchStep_rest_length hs
        simp only [ih g rest (by omega) (by omega)]

/-- One-step unfolding of `_extract_context_identifiers`: find the leftmost
match, record its identity, continue after the match. -/
theorem extract_eq (x : List Char) :
    extract_context_identifiers x =
      match searchStep x with
      | none => []
      | some (i, rest) => i :: extract_context_identifiers rest := by
  rw [extract_context_identifiers, idsF]
  cases hs : searchStep x with
  | none => rfl
  | some pr =>
    obtain ⟨i, rest⟩ := pr
    show i :: idsF x.length rest = i :: extract_context_identifiers rest
    rw [extract_context_identifiers,
      idsF_fuel_irrel x.length (rest.length + 1) rest (searchStep_rest_length hs)
        (Nat.lt_succ_self _)]

theorem scanTail_eq (x : List Char) :
    scanTail x =
      match searchStep x with
      | none => x
      | some (_, rest) => scanTail rest := by
  rw [scanTail, scanTailF]
  cases hs : searchStep x with
  | none => rfl
  | some pr =>
    obtain ⟨i, rest⟩ := pr
    show scanTailF x.length rest = scanTail rest
    rw [scanTail,
      scanTailF_fuel_irrel x.length (rest.length + 1) rest (searchStep_rest_length hs)
        (Nat.lt_succ_self _)]

theorem extract_nil : extract_context_identifiers [] = [] := rfl

theorem scanTail_nil : scanTail [] = [] := rfl

/-- Monotonicity of `re.findall` under appending non-digit-headed text:
every identity pair found before the append is still found afterwards. -/
theorem extract_append_superset {y : List Char} (hy : nonDigitHead y) :
    ∀ (k : Nat) (x : List Char), x.length ≤ k →
      ∀ i ∈ extract_context_identifiers x,
        i ∈ extract_context_identifiers (x ++ y) := by
  intro k
  induction k with
  | zero =>
    intro x hlen i hi
    have : x = [] := List.length_eq_zero.mp (by omega)
    subst this
    rw [extract_nil] at hi
    cases hi
  | succ k ih =>
    intro x hlen i hi
    rw [extract_eq] at hi
    cases hs : searchStep x with
    | none => rw [hs] at hi; cases hi
    | some pr =>
      obtain ⟨i₀, rest⟩ := pr
      rw [hs] at hi
      have hstep := searchStep_append hs (fun _ => hy)
      rw [extract_eq (x ++ y), hstep]
      rcases List.mem_cons.mp hi with rfl | hi'
      · exact List.mem_cons_self _ _
      · have hlt := searchStep_rest_length hs
        exact List.mem_cons_of_mem _ (ih rest (by omega) i hi')

/-- Scan decomposition: the identities of `x ++ y` are the identities of `x`
followed by those of the scan residue of `x` glued to `y`. -/
theorem extract_append_decomp {y : List Char} (hy : nonDigitHead y) :
    ∀ (k : Nat) (x : List Char), x.length ≤ k →
      extract_context_identifiers (x ++ y) =
        extract_context_identifiers x ++
          extract_context_identifiers (scanTail x ++ y) := by
  intro k
  induction k with
  | zero =>
    intro x hlen
    have : x = [] := List.length_eq_zero.mp (by omega)
    subst this
    simp [extract_nil, scanTail_nil]
  | succ k ih =>
    intro x hlen
    cases hs : searchStep x with
    | none =>
      have h1 : extract_context_identifiers x = [] := by rw [extract_eq, hs]
      have h2 : scanTail x = x := by rw [scanTail_eq, hs]
      rw [h1, h2, List.nil_append]
    | some pr =>
      obtain ⟨i₀, rest⟩ := pr
      have hstep := searchStep_append hs (fun _ => hy)
      have h1 : extract_context_identifiers (x ++ y) =
          i₀ :: extract_context_identifiers (rest ++ y) := by
        rw [extract_eq (x ++ y), hstep]
      have h2 : extract_context_identifiers x =
          i₀ :: extract_context_identifiers rest := by
        rw [extract_eq x, hs]
      have h3 : scanTail x = scanTail rest := by rw [scanTail_eq, hs]
      have hlt := searchStep_rest_length hs
      rw [h1, h2, h3, List.cons_append, ih rest (by omega)]

/-- If no occurrence of `Source:` starts inside `x`, the leftmost-match scan
of `x ++ y` is exactly the scan of `y`. -/
theorem searchStep_skip {x y : List Char} (h : noStartIn srcLit x y) :
    searchStep (x ++ y) = searchStep y := by
  induction x with
  | nil => simp
  | cons c cs ih =>
    rw [List.cons_append, searchStep]
    have hm : matchHead (c :: (cs ++ y)) = none := by
      cases hmm : matchHead (c :: (cs ++ y)) with
      | none => rfl
      | some pr =>
        exfalso
        obtain ⟨⟨f, n⟩, r⟩ := pr
        rw [matchHead_eq_some_iff] at hmm
        obtain ⟨w, ws1, ds, heq, -, -, -, -, -, -, -, -, -, -, -⟩ := hmm
        apply h (c :: cs) List.suffix_rfl (List.cons_ne_nil c cs)
        rw [List.isPrefixOf_iff_prefix, List.cons_append]
        exact ⟨w ++ '(' :: (chunkLit ++ ws1 ++ ds ++ r), by
          rw [heq]; simp [List.append_assoc]⟩
    rw [hm]
    exact ih (fun x' hx' hne => h x' (hx'.trans (List.suffix_cons c cs)) hne)

theorem extract_skip {x y : List Char} (h : noStartIn srcLit x y) :
    extract_context_identifiers (x ++ y) = extract_context_identifiers y := by
  rw [extract_eq (x ++ y), searchStep_skip h, ← extract_eq y]

/-! ## Characterisation of `str.find` -/

theorem pyFindAux_eq_none_iff (pat : List Char) :
    ∀ (s : List Char) (k : Nat),
      pyFindAux pat s k = none ↔ ∀ j : Nat, ¬ pat.isPrefixOf (s.drop j) = true := by
  intro s
  induction s with
  | nil =>
    intro k
    rw [pyFindAux]
    by_cases hp : pat.isPrefixOf [] = true
    · simp only [hp, if_true]
      constructor
      · intro h; cases h
      · intro h; exact absurd hp (by simpa using h 0)
    · rw [if_neg hp]
      constructor
      · intro _ j
        simpa [List.drop_nil] using hp
      · intro _; rfl
  | cons c t ih =>
    intro k
    rw [pyFindAux]
    by_cases hp : pat.isPrefixOf (c :: t) = true
    · simp only [if_pos hp]
      constructor
      · intro h; cases h
      · intro h; exact absurd hp (by simpa using h 0)
    · rw [if_neg hp]
      rw [ih (k + 1)]
      constructor
      · intro h j
        match j with
        | 0 => simpa using hp
        | j + 1 => exact h j
      · intro h j
        exact h (j + 1)

theorem pyFind_none_iff {x pat : List Char} :
    pyFind x pat = none ↔ ∀ j : Nat, ¬ pat.isPrefixOf (x.drop j) = true :=
  pyFindAux_eq_none_iff pat x 0

theorem pyFindAux_some_intro (pat : List Char) :
    ∀ (s : List Char) (k m : Nat), pat.isPrefixOf (s.drop m) = true →
      (∀ l < m, ¬ pat.isPrefixOf (s.drop l) = true) →
      pyFindAux pat s k = some (k + m) := by
  intro s
  induction s with
  | nil =>
    intro k m hm hmin
    have hm0 : m = 0 := by
      by_contra hne
      exact hmin 0 (by omega) (by simpa [List.drop_nil] using hm)
    subst hm0
    rw [pyFindAux, if_pos (by simpa using hm)]
    rfl
  | cons c t ih =>
    intro k m hm hmin
    match m with
    | 0 =>
      rw [pyFindAux, if_pos (by simpa using hm)]
      rfl
    | m + 1 =>
      have hp : ¬ pat.isPrefixOf (c :: t) = true := by
        simpa using hmin 0 (by omega)
      rw [pyFindAux, if_neg (by simpa using hp)]
      have := ih (k + 1) m hm (fun l hl => hmin (l + 1) (by omega))
      rw [this]
      congr 1
      omega

theorem pyFind_some_intro {x pat : List Char} {i : Nat}
    (hocc : pat.isPrefixOf (x.drop i) = true)
    (hmin : ∀ l < i, ¬ pat.isPrefixOf (x.drop l) = true) :
    pyFind x pat = some i := by
  have := pyFindAux_some_intro pat x 0 i hocc hmin
  simpa using this

theorem pyFindAux_some_elim (pat : List Char) :
    ∀ (s : List Char) (k j : Nat), pyFindAux pat s k = some j →
      ∃ m, j = k + m ∧ pat.isPrefixOf (s.drop m) = true ∧
        ∀ l < m, ¬ pat.isPrefixOf (s.drop l) = true := by
  intro s
  induction s with
  | nil =>
    intro k j h
    rw [pyFindAux] at h
    by_cases hp : pat.isPrefixOf [] = true
    · rw [if_pos hp] at h
      cases h
      exact ⟨0, rfl, by simpa using hp, by omega⟩
    · rw [if_neg (by simp [hp])] at h
      cases h
  | cons c t ih =>
    intro k j h
    rw [pyFindAux] at h
    by_cases hp : pat.isPrefixOf (c :: t) = true
    · rw [if_pos hp] at h
      cases h
      exact ⟨0, rfl, by simpa using hp, by omega⟩
    · rw [if_neg (by simp [hp])] at h
      obtain ⟨m, hm, hocc, hmin⟩ := ih (k + 1) j h
      refine ⟨m + 1, by omega, by simpa using hocc, ?_⟩
      intro l hl
      match l with
      | 0 => simpa using hp
      | l + 1 => exact hmin l (by omega)

theorem pyFind_some_elim {x pat : List Char} {i : Nat}
    (h : pyFind x pat = some i) :
    pat.isPrefixOf (x.drop i) = true ∧
      ∀ l < i, ¬ pat.isPrefixOf (x.drop l) = true := by
  obtain ⟨m, hm, hocc, hmin⟩ := pyFindAux_some_elim pat x 0 i h
  have : m = i := by omega
  subst this
  exact ⟨hocc, hmin⟩

/-! ## Establishing `noStartIn` -/

theorem noStartIn_intro {pat x y : List Char}
    (hfind : pyFind x pat = none)
    (hy : ∀ c, y.head? = some c → c ∉ pat.drop 1) : noStartIn pat x y := by
  intro x' hsuf hne hpre
  rw [List.isPrefixOf_iff_prefix] at hpre
  obtain ⟨t, ht⟩ := hpre
  rw [pyFind_none_iff] at hfind
  obtain ⟨u, hu⟩ := hsuf
  have hdrop : x.drop u.length = x' := by
    rw [← hu, List.drop_left]
  rcases List.append_eq_append_iff.mp ht with ⟨a', hx', -⟩ | ⟨c', hpat, hyc⟩
  · apply hfind u.length
    rw [hdrop, List.isPrefixOf_iff_prefix, hx']
    exact ⟨a', rfl⟩
  · cases c' with
    | nil =>
      apply hfind u.length
      rw [hdrop, List.isPrefixOf_iff_prefix, hpat]
      simp
    | cons ch ctl =>
      have hhead : y.head? = some ch := by rw [hyc]; rfl
      apply hy ch hhead
      cases x' with
      | nil => exact absurd rfl hne
      | cons a tl =>
        rw [hpat]
        simp

theorem noStartIn_of_head {x y : List Char} {p₀ : Char} {pr : List Char}
    (h : ∀ c ∈ x, c ≠ p₀) : noStartIn (p₀ :: pr) x y := by
  intro x' hsuf hne hpre
  cases x' with
  | nil => exact absurd rfl hne
  | cons a tl =>
    rw [List.isPrefixOf_iff_prefix, List.cons_append, List.cons_prefix_cons] at hpre
    obtain ⟨u, hu⟩ := hsuf
    exact h a (by rw [← hu]; simp) hpre.1.symm

theorem drop_append_le {a b : List Char} {l : Nat} (h : l ≤ a.length) :
    (a ++ b).drop l = a.drop l ++ b :=
  List.drop_append_of_le_length h

/-- Locating a literal after a clean prefix. -/
theorem pyFind_append_at {a pat b : List Char}
    (h : noStartIn pat a (pat ++ b)) : pyFind (a ++ (pat ++ b)) pat = some a.length := by
  apply pyFind_some_intro
  · rw [List.drop_left, List.isPrefixOf_iff_prefix]
    exact ⟨b, rfl⟩
  · intro l hl
    rw [drop_append_le (by omega)]
    apply h (a.drop l) (List.drop_suffix l a)
    intro he
    have := congrArg List.length he
    simp only [List.length_drop, List.length_nil] at this
    omega

theorem truncateF_head? (mt fuel : Nat) :
    ∀ ms : List Msg, (truncateF mt fuel ms).head? = ms.head? := by
  induction fuel with
  | zero => intro ms; rfl
  | succ f ih =>
    intro ms
    rw [truncateF]
    split
    · split
      · rfl
      · rename_i hlen _
        match ms, hlen with
        | a :: b :: t, _ =>
          rw [show (a :: b :: t).eraseIdx 1 = a :: t from rfl, ih]
          rfl
    · rfl

theorem truncateF_getLast? (mt fuel : Nat) :
    ∀ ms : List Msg, (truncateF mt fuel ms).getLast? = ms.getLast? := by
  induction fuel with
  | zero => intro ms; rfl
  | succ f ih =>
    intro ms
    rw [truncateF]
    split
    · split
      · rfl
      · rename_i hlen _
        match ms, hlen with
        | a :: b :: c :: t, _ =>
          rw [show (a :: b :: c :: t).eraseIdx 1 = a :: c :: t from rfl, ih]
          simp [List.getLast?_cons_cons]
    · rfl

theorem truncateF_exit (mt : Nat) :
    ∀ fuel (ms : List Msg), ms.length ≤ fuel →
      (truncateF mt fuel ms).length ≤ 2 ∨
      count_messages_tokens (truncateF mt fuel ms) ≤ mt := by
  intro fuel
  induction fuel with
  | zero =>
    intro ms h
    interval_cases hms : ms.length
    left
    rw [truncateF]
    omega
  | succ f ih =>
    intro ms h
    rw [truncateF]
    split
    · split
      · right; assumption
      · rename_i hlen _
        apply ih
        rw [List.length_eraseIdx_of_lt (by omega)]
        omega
    · left; omega

theorem truncateF_fuel_irrel (mt : Nat) :
    ∀ f₁ f₂ (ms : List Msg), ms.length ≤ f₁ → ms.length ≤ f₂ →
      truncateF mt f₁ ms = truncateF mt f₂ ms := by
  intro f₁
  induction f₁ with
  | zero =>
    intro f₂ ms h₁ _
    have : ms = [] := List.length_eq_zero.mp (by omega)
    subst this
    cases f₂ <;> rfl
  | succ f ih =>
    intro f₂ ms h₁ h₂
    match f₂ with
    | 0 =>
      have : ms = [] := List.length_eq_zero.mp (by omega)
      subst this
      rfl
    | g + 1 =>
      rw [truncateF, truncateF]
      split
      · split
        · rfl
        · rename_i hlen _
          apply ih
          · rw [List.length_eraseIdx_of_lt (by omega)]; omega
          · rw [List.length_eraseIdx_of_lt (by omega)]; omega
      · rfl

/-- C3: `truncate_history` preserves the first and last message, its result
satisfies the loop's exit condition (at most two messages remain, or the
estimated token count is within the budget), and the fueled eviction loop is
fuel-insensitive beyond `messages.length` steps — i.e. the loop terminates on
every input, including when a single message alone exceeds the budget. -/
theorem truncate_history_spec (mt : Nat) (ms : List Msg) :
    (truncate_history mt ms).head? = ms.head? ∧
    (truncate_history mt ms).getLast? = ms.getLast? ∧
    ((truncate_history mt ms).length ≤ 2 ∨
      count_messages_tokens (truncate_history mt ms) ≤ mt) ∧
    (∀ fuel, ms.length ≤ fuel → truncateF mt fuel ms = truncate_history mt ms) :=
  ⟨truncateF_head? mt ms.length ms,
   truncateF_getLast? mt ms.length ms,
   truncateF_exit mt ms.length ms le_rfl,
   fun fuel hf => truncateF_fuel_irrel mt fuel ms.length ms hf le_rfl⟩




/-! ## Claim C5: rewrite output size -/

theorem parse_queries_length_le (c : List Char) : (parse_queries c).length ≤ 3 := by
  rw [parse_queries]
  split
  · split
    · simp
    · omega
  · split
    · simp [List.length_take]
    · omega

/-- C5: for every LLM outcome (and graph outcome) and every query, `rewrite`
returns a non-empty list of at most three queries; a query of at most two
whitespace-separated tokens yields exactly `[query]` without consulting the
LLM (the result does not depend on the LLM outcome). -/
theorem rewrite_output_spec (graph_fail : Bool)
    (llm : Except (List Char) (List Char)) (q : List Char) :
    (rewrite graph_fail llm q ≠ [] ∧ (rewrite graph_fail llm q).length ≤ 3) ∧
    ((wsSplit q).length ≤ 2 → rewrite graph_fail llm q = [q]) := by
  constructor
  · rw [rewrite]
    split
    · simp
    · unfold rewrite_query
      split
      · simp
      · match llm with
        | .error e => simp
        | .ok content =>
          simp only []
          have hle := parse_queries_length_le (pyStrip content)
          split
          · simp
          · rename_i hlen
            constructor
            · apply List.ne_nil_of_length_pos
              rw [List.length_take]
              split
              · simp only [List.length_append, List.length_singleton]
                omega
              · omega
            · simp [List.length_take]
  · intro hq
    rw [rewrite]
    split
    · rfl
    · unfold rewrite_query
      rw [if_pos hq]

/-- Witness for C5 at a concrete two-token query. -/
theorem rewrite_output_spec_witness :
    (wsSplit ("hello there".data)).length ≤ 2 ∧
      rewrite false (.ok ("1. whatever".data)) ("hello there".data) =
        [("hello there".data)] := by
  have h := rewrite_output_spec false (.ok ("1. whatever".data)) ("hello there".data)
  exact ⟨by decide, h.2 (by decide)⟩

/-! ## Claim C4: the model fallback chain -/

/-- When a `"No endpoints found for"` failure makes the loop `continue`, the
pre-test `self.llm` assignment of each later iteration overwrites the
current one, so an all-"No endpoints" chain ends configured with its last
candidate. -/
theorem init_llm_loop_all_nef (test : List Char → Option (List Char)) :
    ∀ (ms : List (List Char)) (cur : Option (List Char)), ms ≠ [] →
      (∀ m' ∈ ms, ∃ msg, test m' = some msg ∧
        (pyFind msg ("No endpoints found for".data)).isSome = true) →
      init_llm_loop test ms cur = ms.getLast? := by
  intro ms
  induction ms with
  | nil =>
    intro cur h _
    exact absurd rfl h
  | cons m' ms' ih =>
    intro cur _ h
    obtain ⟨msg, hmsg, hsub⟩ := h m' (List.mem_cons_self _ _)
    rw [init_llm_loop, hmsg]
    dsimp only
    rw [if_pos hsub]
    cases ms' with
    | nil => rfl
    | cons r rs =>
      rw [ih (some m') (by simp) (fun x hx => h x (List.mem_cons_of_mem _ hx))]
      rw [List.getLast?_cons_cons]

/-- C4 (amended): in `_init_llm`, a model whose test call succeeds is kept; a
model failing with a "No endpoints found for" error is skipped in favour of
the rest of the chain (when candidates remain); a model failing with any
other error is *used anyway* (the error is swallowed, not surfaced, and no
further model is attempted); a chain exhausted by "No endpoints found for"
failures leaves the rewriter configured with its *last* candidate — the
client assigned before the test call is never reset on that failure — and
surfaces nothing.  This chain lives in the rewriter's constructor with a
fixed test payload; `ChatService.chat` calls a single configured model with
no chain. -/
theorem init_llm_spec (m : List Char) (rest : List (List Char))
    (test : List Char → Option (List Char)) :
    (test m = none → init_llm (m :: rest) test = some m) ∧
    (∀ msg, test m = some msg →
      (pyFind msg ("No endpoints found for".data)).isSome = true → rest ≠ [] →
      init_llm (m :: rest) test = init_llm rest test) ∧
    (∀ msg, test m = some msg →
      (pyFind msg ("No endpoints found for".data)).isSome = false →
      init_llm (m :: rest) test = some m) ∧
    ((∀ m' ∈ m :: rest, ∃ msg, test m' = some msg ∧
        (pyFind msg ("No endpoints found for".data)).isSome = true) →
      init_llm (m :: rest) test = (m :: rest).getLast?) := by
  refine ⟨?_, ?_, ?_, ?_⟩
  · intro h
    rw [init_llm, init_llm_loop, h]
  · intro msg h hsub hne
    rw [init_llm, init_llm_loop, h]
    simp only [hsub, if_true]
    cases rest with
    | nil => exact absurd rfl hne
    | cons r rs =>
      rw [init_llm, init_llm_loop, init_llm_loop]
  · intro msg h hsub
    rw [init_llm, init_llm_loop, h]
    simp [hsub]
  · intro h
    rw [init_llm]
    exact init_llm_loop_all_nef test (m :: rest) none (by simp) h

/-- Witness for C4's amended theorem at concrete inputs: a "No endpoints"
failure falls through to the next model, and a chain where every model fails
that way ends configured with the last candidate. -/
theorem init_llm_spec_witness :
    init_llm [("model-a".data), ("model-b".data)]
        (fun m => if m = ("model-a".data) then
          some ("No endpoints found for model-a".data) else none) =
      some ("model-b".data) ∧
    init_llm [("model-a".data), ("model-b".data)]
        (fun _ => some ("No endpoints found for model-x".data)) =
      some ("model-b".data) := by
  constructor
  · have h := init_llm_spec ("model-a".data) [("model-b".data)]
      (fun m => if m = ("model-a".data) then
        some ("No endpoints found for model-a".data) else none)
    rw [h.2.1 ("No endpoints found for model-a".data) (by decide) (by decide)
      (by decide)]
    exact (init_llm_spec ("model-b".data) []
      (fun m => if m = ("model-a".data) then
        some ("No endpoints found for model-a".data) else none)).1 (by decide)
  · have h := (init_llm_spec ("model-a".data) [("model-b".data)]
      (fun _ => some ("No endpoints found for model-x".data))).2.2.2
    rw [h (fun x hx => ⟨("No endpoints found for model-x".data), rfl, by decide⟩)]
    rfl

/-- Counterexample to C4 as stated: with a single model whose test call
fails with an unrelated error ("Invalid API key"), the claim requires the
error to be surfaced immediately, but `_init_llm` swallows the error and
configures that very model. -/
theorem init_llm_claim_counterexample :
    init_llm [("model-a".data)] (fun _ => some ("Invalid API key".data)) =
        some ("model-a".data) ∧
      spec_fallback [("model-a".data)] (fun _ => some ("Invalid API key".data)) =
        .error ("Invalid API key".data) := by
  exact ⟨rfl, rfl⟩

/-! ## Claim C9: failure atomicity of a chat turn -/

/-- C9: if the LLM completion call inside `chat` fails with message `e`, the
turn returns `"Error calling LLM: " ++ e` and the persisted session state —
history (the just-appended user message included) and the `updated_at`
timestamp — is exactly what it was before the turn. -/
theorem chat_error_atomic (stored : List Msg) (meta_updated_at : Option Nat)
    (user_message : List Char) (include_rag : Bool) (rag_context : List Char)
    (llm : List Msg → Except (List Char) (List Char)) (max_tokens now : Nat)
    (e : List Char) (h : ∀ ms, llm ms = .error e) :
    chat stored meta_updated_at user_message include_rag rag_context llm
        max_tokens now =
      (("Error calling LLM: ".data) ++ e, stored, meta_updated_at) := by
  rw [chat]
  simp only [h]

/-- Witness for C9 at a concrete session state. -/
theorem chat_error_atomic_witness :
    chat [init_system_prompt, ⟨"user".data, "hi".data⟩] (some 41) ("again".data)
        true ("ctx".data) (fun _ => .error ("boom".data)) 30000 99 =
      (("Error calling LLM: boom".data),
        [init_system_prompt, ⟨"user".data, "hi".data⟩], some 41) :=
  chat_error_atomic [init_system_prompt, ⟨"user".data, "hi".data⟩] (some 41)
    ("again".data) true ("ctx".data) (fun _ => .error ("boom".data)) 30000 99
    ("boom".data) (fun _ => rfl)



/-! ## Claim C6: the parse-and-validate policy of the rewriter -/

theorem wsSplit_nil : wsSplit [] = [] := rfl

theorem stripEnumMarker_nil : stripEnumMarker [] = [] := rfl

theorem acceptedLine_eq_code (line : List Char) :
    (if (pyStrip line).isEmpty then none
     else
       let cleaned := pyStrip (stripEnumMarker (pyStrip line))
       if ¬cleaned.isEmpty ∧ 15 ≤ (wsSplit cleaned).length ∧
           cleaned.getLast? = some '?' then some cleaned
       else none) = acceptedLine line := by
  rw [acceptedLine]
  by_cases he : (pyStrip line).isEmpty
  · rw [if_pos he]
    have hnil : pyStrip line = [] := by simpa [List.isEmpty_iff] using he
    rw [hnil, stripEnumMarker_nil]
    have : pyStrip ([] : List Char) = [] := rfl
    rw [this, wsSplit_nil]
    simp
  · rw [if_neg he]
    simp only []
    by_cases hacc : 15 ≤ (wsSplit (pyStrip (stripEnumMarker (pyStrip line)))).length ∧
        (pyStrip (stripEnumMarker (pyStrip line))).getLast? = some '?'
    · rw [if_pos hacc]
      have hne : ¬(pyStrip (stripEnumMarker (pyStrip line))).isEmpty := by
        intro hcon
        have : pyStrip (stripEnumMarker (pyStrip line)) = [] := by
          simpa [List.isEmpty_iff] using hcon
        rw [this, wsSplit_nil] at hacc
        simp at hacc
      rw [if_pos ⟨hne, hacc.1, hacc.2⟩]
    · rw [if_neg hacc, if_neg (by tauto)]

theorem parse_queries_take3 (qs : List (List Char)) :
    (if qs.length < 3 then (if qs.length = 0 then [] else qs)
     else if qs.length > 3 then qs.take 3 else qs) = qs.take 3 := by
  split
  · split
    · rename_i _ h0
      have : qs = [] := List.length_eq_zero.mp h0
      subst this
      rfl
    · rename_i h _
      exact (List.take_of_length_le (by omega)).symm
  · split
    · rfl
    · rename_i h h3
      exact (List.take_of_length_le (by omega)).symm

theorem parse_queries_eq_accepted (content : List Char) :
    parse_queries content = (acceptedLines content).take 3 := by
  rw [parse_queries, acceptedLines]
  have hcong : (pySplit ("\n".data) (pyStrip content)).filterMap (fun line =>
      if (pyStrip line).isEmpty then none
      else
        let cleaned := pyStrip (stripEnumMarker (pyStrip line))
        if ¬cleaned.isEmpty ∧ 15 ≤ (wsSplit cleaned).length ∧
            cleaned.getLast? = some '?' then some cleaned
        else none) =
      (pySplit ("\n".data) (pyStrip content)).filterMap acceptedLine :=
    List.filterMap_congr (fun a _ => acceptedLine_eq_code a)
  rw [hcong]
  exact parse_queries_take3 _

/-- C6: a response line is accepted iff, after stripping leading enumeration
markers (and surrounding whitespace), it ends with `?` and has at least 15
whitespace-separated words; `_parse_queries` returns the first (at most) 3
accepted lines in order, and `_rewrite_query` (for a query long enough to
reach the LLM) discards everything and returns `[original]` when fewer than
2 lines are accepted, appends the original as a third entry when exactly 2
are accepted, and returns the first 3 accepted lines otherwise. -/
theorem parse_validate_policy (content original : List Char)
    (hlong : 2 < (wsSplit original).length) :
    parse_queries content = (acceptedLines content).take 3 ∧
    ((acceptedLines (pyStrip content)).length < 2 →
      rewrite_query (.ok content) original = [original]) ∧
    ((acceptedLines (pyStrip content)).length = 2 →
      rewrite_query (.ok content) original =
        acceptedLines (pyStrip content) ++ [original]) ∧
    (3 ≤ (acceptedLines (pyStrip content)).length →
      rewrite_query (.ok content) original =
        (acceptedLines (pyStrip content)).take 3) := by
  have hacc := parse_queries_eq_accepted (pyStrip content)
  refine ⟨parse_queries_eq_accepted content, ?_, ?_, ?_⟩
  · intro hlt
    unfold rewrite_query
    rw [if_neg (by omega)]
    dsimp only
    rw [hacc]
    rw [if_pos (by rw [List.length_take]; omega)]
  · intro h2
    unfold rewrite_query
    rw [if_neg (by omega)]
    dsimp only
    rw [hacc]
    rw [List.take_of_length_le (by omega)]
    rw [if_neg (by omega), if_pos (by simp [h2])]
    exact List.take_of_length_le (by simp [h2])
  · intro h3
    unfold rewrite_query
    rw [if_neg (by omega)]
    dsimp only
    rw [hacc]
    rw [if_neg (by rw [List.length_take]; omega)]
    rw [if_neg (by rw [List.length_take]; omega)]
    rw [List.take_take]
    rfl

set_option maxRecDepth 8000 in
/-- Witness for C6: a response with exactly two acceptable lines gets the
original query appended as a third entry. -/
theorem parse_validate_policy_witness :
    2 < (wsSplit ("can I deduct my home office".data)).length ∧
      rewrite_query
          (.ok (("1. what can I deduct and how do I report it on my annual tax return filing?\n2. am I eligible and what documents do I need to keep for an audit every year?").data))
          ("can I deduct my home office".data) =
        acceptedLines (pyStrip (("1. what can I deduct and how do I report it on my annual tax return filing?\n2. am I eligible and what documents do I need to keep for an audit every year?").data)) ++
          [("can I deduct my home office".data)] := by
  refine ⟨by decide, ?_⟩
  exact (parse_validate_policy
    (("1. what can I deduct and how do I report it on my annual tax return filing?\n2. am I eligible and what documents do I need to keep for an audit every year?").data)
    ("can I deduct my home office".data) (by decide)).2.2.1 (by decide)



/-! ## Claims C7 and C8: retrieval collection (spec-modelled `get_context`) -/

theorem dedupByContent_spec :
    ∀ (l : List Hit) (seen : List (List Char)),
      ((dedupByContent l seen).map Hit.content).Nodup ∧
      (∀ c ∈ (dedupByContent l seen).map Hit.content, c ∉ seen) ∧
      List.Sublist (dedupByContent l seen) l ∧
      (∀ h ∈ l, h.content ∈ seen ∨
        h.content ∈ (dedupByContent l seen).map Hit.content) := by
  intro l
  induction l with
  | nil =>
    intro seen
    refine ⟨by simp [dedupByContent], by simp [dedupByContent],
      by simp [dedupByContent], by simp⟩
  | cons h rest ih =>
    intro seen
    rw [dedupByContent]
    by_cases hmem : h.content ∈ seen
    · rw [if_pos hmem]
      obtain ⟨h1, h2, h3, h4⟩ := ih seen
      refine ⟨h1, h2, h3.cons _, ?_⟩
      intro x hx
      rcases List.mem_cons.mp hx with rfl | hx'
      · exact Or.inl hmem
      · exact h4 x hx'
    · rw [if_neg hmem]
      obtain ⟨h1, h2, h3, h4⟩ := ih (h.content :: seen)
      refine ⟨?_, ?_, h3.cons₂ _, ?_⟩
      · rw [List.map_cons, List.nodup_cons]
        exact ⟨fun hc => (h2 h.content hc) (by simp), h1⟩
      · intro c hc
        rcases List.mem_cons.mp hc with rfl | hc'
        · exact hmem
        · intro hcon
          exact (h2 c hc') (by simp [hcon])
      · intro x hx
        rcases List.mem_cons.mp hx with rfl | hx'
        · exact Or.inr (by simp)
        · rcases h4 x hx' with hs | hs
          · rcases List.mem_cons.mp hs with he | hs'
            · exact Or.inr (by simp [he])
            · exact Or.inl hs'
          · exact Or.inr (by simp [hs])

/-- C7 (spec-modelled): collecting the hits of the non-failing variants into
one sequence, `get_context` drops every second or later occurrence of an
identical content string — regardless of which variant produced it and of
its `(source, chunk_index)` identity or score: the surviving contents are
pairwise distinct, the survivors are a subsequence of the collected hits
(first occurrences, in order), and every collected content is represented. -/
theorem get_context_dedup_spec
    (variant_results : List (Except (List Char) (List Hit))) :
    ((get_context variant_results).map Hit.content).Nodup ∧
    List.Sublist (get_context variant_results)
      ((variant_results.filterMap (fun r =>
        match r with
        | .ok hs => some hs
        | .error _ => none)).flatten) ∧
    ∀ h ∈ ((variant_results.filterMap (fun r =>
        match r with
        | .ok hs => some hs
        | .error _ => none)).flatten),
      h.content ∈ (get_context variant_results).map Hit.content := by
  obtain ⟨h1, h2, h3, h4⟩ := dedupByContent_spec
    ((variant_results.filterMap (fun r =>
      match r with
      | .ok hs => some hs
      | .error _ => none)).flatten) []
  refine ⟨h1, h3, ?_⟩
  intro h hh
  rcases h4 h hh with hs | hs
  · cases hs
  · exact hs

/-- C8 (spec-modelled): a failing query variant contributes nothing and does
not abort collection — removing it leaves the result unchanged — and if
every variant fails, `get_context` returns the empty result (it is a total
function: no exception reaches the caller). -/
theorem get_context_partial_failure :
    (∀ (xs ys : List (Except (List Char) (List Hit))) (e : List Char),
      get_context (xs ++ .error e :: ys) = get_context (xs ++ ys)) ∧
    (∀ rs : List (Except (List Char) (List Hit)),
      (∀ r ∈ rs, ∃ e, r = .error e) → get_context rs = []) := by
  constructor
  · intro xs ys e
    rw [get_context, get_context, List.filterMap_append, List.filterMap_append,
      List.filterMap_cons]
  · intro rs hall
    have : rs.filterMap (fun r =>
        match r with
        | .ok hs => some hs
        | .error _ => none) = [] := by
      induction rs with
      | nil => rfl
      | cons r rest ih =>
        obtain ⟨e, rfl⟩ := hall r (by simp)
        rw [List.filterMap_cons]
        exact ih (fun x hx => hall x (by simp [hx]))
    rw [get_context, this]
    rfl

/-- Witness for C8: two failing variants yield the empty result. -/
theorem get_context_partial_failure_witness :
    get_context [.error ("embed failed".data), .error ("timeout".data)] = [] :=
  get_context_partial_failure.2
    [.error ("embed failed".data), .error ("timeout".data)]
    (by intro r hr; rcases List.mem_cons.mp hr with rfl | hr'
        · exact ⟨_, rfl⟩
        · rcases List.mem_cons.mp hr' with rfl | h
          · exact ⟨_, rfl⟩
          · cases h)

theorem prefix_ne_nil {pat z : List Char} (hne : pat ≠ []) (h : pat.isPrefixOf z = true) :
    z ≠ [] := by
  intro hz
  subst hz
  rw [List.isPrefixOf_iff_prefix] at h
  exact hne (List.prefix_nil.mp h)

theorem occ_lt_length {z pat : List Char} {l : Nat} (hne : pat ≠ [])
    (h : pat.isPrefixOf (z.drop l) = true) : l < z.length := by
  have hz := prefix_ne_nil hne h
  by_contra hge
  push_neg at hge
  exact hz (List.drop_eq_nil_of_le hge)

theorem prefix_drop_decomp {z pat : List Char} {i : Nat}
    (h : pat.isPrefixOf (z.drop i) = true) :
    z = z.take i ++ pat ++ z.drop (i + pat.length) := by
  rw [List.isPrefixOf_iff_prefix] at h
  obtain ⟨t, ht⟩ := h
  have ht' : z.drop (i + pat.length) = t := by
    rw [← List.drop_drop, ← ht, List.drop_left]
  rw [ht', List.append_assoc, ht, List.take_append_drop]

theorem isPrefixOf_of_take {pat z : List Char} {n : Nat}
    (h : pat.isPrefixOf (z.take n) = true) : pat.isPrefixOf z = true := by
  rw [List.isPrefixOf_iff_prefix] at h ⊢
  exact h.trans (List.take_prefix n z)

theorem occ_take_lift {z pat : List Char} {n l : Nat} (hne : pat ≠ [])
    (h : pat.isPrefixOf ((z.take n).drop l) = true) :
    pat.isPrefixOf (z.drop l) = true ∧ l < n := by
  rw [List.drop_take] at h
  refine ⟨isPrefixOf_of_take h, ?_⟩
  have hz := prefix_ne_nil hne h
  by_contra hge
  push_neg at hge
  apply hz
  rw [Nat.sub_eq_zero_of_le hge, List.take_zero]

theorem pyFind_take_none {S pat : List Char} {i : Nat} (hne : pat ≠ [])
    (h : pyFind S pat = some i) : pyFind (S.take i) pat = none := by
  rw [pyFind_none_iff]
  intro l hl
  obtain ⟨hocc, hlt⟩ := occ_take_lift hne hl
  exact (pyFind_some_elim h).2 l hlt hocc

theorem prefix_append_split {pat a b : List Char}
    (h : pat.isPrefixOf (a ++ b) = true) :
    pat.isPrefixOf a = true ∨
      (a.length < pat.length ∧ pat.take a.length = a ∧
        (pat.drop a.length).isPrefixOf b = true) := by
  rw [List.isPrefixOf_iff_prefix] at h
  obtain ⟨t, ht⟩ := h
  rcases List.append_eq_append_iff.mp ht with ⟨w, hw1, hw2⟩ | ⟨w, hw1, hw2⟩
  · -- hw1 : a = pat ++ w
    left
    rw [List.isPrefixOf_iff_prefix]
    exact ⟨w, hw1.symm⟩
  · -- hw1 : pat = a ++ w, hw2 : b = w ++ t
    cases w with
    | nil =>
      left
      rw [List.isPrefixOf_iff_prefix, hw1, List.append_nil]
    | cons c cs =>
      right
      refine ⟨?_, ?_, ?_⟩
      · rw [hw1, List.length_append, List.length_cons]; omega
      · rw [hw1, List.take_left]
      · rw [hw1, List.drop_left, List.isPrefixOf_iff_prefix]
        exact ⟨t, hw2.symm⟩

theorem not_prefix_head_ne {pat z : List Char} {c d : Char}
    (hp : pat.head? = some c) (hz : z.head? = some d) (hne : c ≠ d) :
    ¬ pat.isPrefixOf z = true := by
  intro h
  cases pat with
  | nil => cases hp
  | cons p pt =>
    cases z with
    | nil => cases hz
    | cons q qt =>
      rw [List.isPrefixOf_iff_prefix, List.cons_prefix_cons] at h
      simp only [List.head?_cons, Option.some.injEq] at hp hz
      subst hp
      subst hz
      exact hne h.1

theorem hasOcc_append_cases {u v pat : List Char} (h : hasOcc (u ++ v) pat) :
    hasOcc u pat ∨ hasOcc v pat ∨
      ∃ κ, 0 < κ ∧ κ < pat.length ∧ pat.take κ <:+ u ∧
        (pat.drop κ).isPrefixOf v = true := by
  obtain ⟨l, hl⟩ := h
  by_cases hlu : u.length ≤ l
  · right; left
    have h2 : (u ++ v).drop l = v.drop (l - u.length) := by
      conv_lhs => rw [show l = u.length + (l - u.length) by omega]
      rw [List.drop_append]
    rw [h2] at hl
    exact ⟨l - u.length, hl⟩
  · push_neg at hlu
    rw [drop_append_le (by omega)] at hl
    rcases prefix_append_split hl with hps | ⟨hlen, htake, hdrop⟩
    · left; exact ⟨l, hps⟩
    · right; right
      refine ⟨(u.drop l).length, ?_, hlen, ?_, hdrop⟩
      · rw [List.length_drop]; omega
      · rw [htake]; exact List.drop_suffix l u

theorem not_hasOcc_short {z pat : List Char} (h : z.length < pat.length) :
    ¬ hasOcc z pat := by
  rintro ⟨l, hl⟩
  rw [List.isPrefixOf_iff_prefix] at hl
  have hle := hl.length_le
  rw [List.length_drop] at hle
  omega

theorem not_hasOcc_head_notMem {z pat : List Char} {c : Char}
    (hp : pat.head? = some c) (hc : c ∉ z) : ¬ hasOcc z pat := by
  rintro ⟨l, hl⟩
  cases pat with
  | nil => cases hp
  | cons p pt =>
    simp only [List.head?_cons, Option.some.injEq] at hp
    subst hp
    cases hz : z.drop l with
    | nil =>
      rw [hz] at hl
      rw [List.isPrefixOf_iff_prefix] at hl
      exact absurd (List.prefix_nil.mp hl) (by simp)
    | cons q qt =>
      rw [hz, List.isPrefixOf_iff_prefix, List.cons_prefix_cons] at hl
      apply hc
      rw [hl.1]
      have hs := List.drop_sublist l z
      rw [hz] at hs
      exact hs.subset (List.mem_cons_self q qt)

theorem head_mem_take {c : Char} {l : List Char} {n : Nat} (hn : 0 < n)
    (hl : l.head? = some c) : c ∈ l.take n := by
  cases l with
  | nil => cases hl
  | cons a t =>
    cases n with
    | zero => omega
    | succ m =>
      simp only [List.head?_cons, Option.some.injEq] at hl
      subst hl
      rw [List.take_succ_cons]
      exact List.mem_cons_self _ _

theorem close_span_left_kill {κ : Nat} {u : List Char} (hκ : 0 < κ)
    (hsuf : kbCloseTag.take κ <:+ u) (hu : '<' ∉ u) : False := by
  apply hu
  apply hsuf.subset
  exact head_mem_take hκ rfl

theorem close_span_right_kill {κ : Nat} {v : List Char} {c : Char} (hκ : 0 < κ)
    (hκ2 : κ < kbCloseTag.length)
    (hpre : (kbCloseTag.drop κ).isPrefixOf v = true)
    (hv : v.head? = some c) (hc : c ∉ kbCloseTag.drop 1) : False := by
  cases hd : kbCloseTag.drop κ with
  | nil =>
    have hlen := congrArg List.length hd
    rw [List.length_drop] at hlen
    simp only [List.length_nil] at hlen
    omega
  | cons d dt =>
    have hdv : v.head? = some d := by
      cases v with
      | nil =>
        rw [hd, List.isPrefixOf_iff_prefix] at hpre
        exact absurd (List.prefix_nil.mp hpre) (by simp)
      | cons q qt =>
        rw [hd, List.isPrefixOf_iff_prefix, List.cons_prefix_cons] at hpre
        rw [List.head?_cons, hpre.1]
    rw [hv] at hdv
    have hcd : c = d := Option.some.inj hdv
    apply hc
    rw [hcd]
    have hs : List.Sublist (kbCloseTag.drop κ) (kbCloseTag.drop 1) :=
      List.drop_sublist_drop_left kbCloseTag (by omega)
    apply hs.subset
    rw [hd]
    exact List.mem_cons_self _ _

/-! ## `strip` structure lemmas -/

theorem stripL_suffix (l : List Char) : stripL l <:+ l :=
  List.dropWhile_suffix pyIsSpace

theorem stripR_prefix (l : List Char) : stripR l <+: l := by
  have h : l.reverse.dropWhile pyIsSpace <:+ l.reverse :=
    List.dropWhile_suffix pyIsSpace
  have h2 := List.reverse_prefix.mpr h
  rw [List.reverse_reverse] at h2
  exact h2

theorem stripR_head? {l : List Char} (h : stripR l ≠ []) :
    (stripR l).head? = l.head? := by
  obtain ⟨t, ht⟩ := stripR_prefix l
  cases hs : stripR l with
  | nil => exact absurd hs h
  | cons c cs =>
    have h2 : l.head? = some c := by rw [← ht, hs]; rfl
    rw [h2]
    rfl

theorem stripL_head_not_space {l : List Char} {c : Char}
    (h : (stripL l).head? = some c) : pyIsSpace c = false := by
  have hh := List.head?_dropWhile_not pyIsSpace l
  rw [stripL] at h
  rw [h] at hh
  exact hh

theorem stripR_append (a b : List Char) :
    stripR (a ++ b) = if (stripR b).isEmpty then stripR a else a ++ stripR b := by
  have hiff : (stripR b).isEmpty = (b.reverse.dropWhile pyIsSpace).isEmpty := by
    rw [stripR]
    cases b.reverse.dropWhile pyIsSpace <;> simp
  rw [stripR, List.reverse_append, List.dropWhile_append, hiff]
  by_cases hb : (b.reverse.dropWhile pyIsSpace).isEmpty = true
  · rw [if_pos hb, if_pos hb]
    rfl
  · rw [if_neg hb, if_neg hb, List.reverse_append, List.reverse_reverse]
    rfl

theorem dropWhile_space_idem (l : List Char) :
    (l.dropWhile pyIsSpace).dropWhile pyIsSpace = l.dropWhile pyIsSpace := by
  have hh := List.head?_dropWhile_not pyIsSpace l
  cases hL : l.dropWhile pyIsSpace with
  | nil => rfl
  | cons c cs =>
    rw [hL] at hh
    have hc : pyIsSpace c = false := hh
    rw [List.dropWhile_cons_of_neg (by simp [hc])]

theorem stripR_idem (l : List Char) : stripR (stripR l) = stripR l := by
  rw [stripR, stripR, List.reverse_reverse, dropWhile_space_idem]

theorem pyStrip_nil : pyStrip [] = [] := rfl

theorem stripR_pyStrip (l : List Char) : stripR (pyStrip l) = pyStrip l := by
  rw [pyStrip, stripR_idem]

theorem pyStrip_head_not_space {l : List Char} {c : Char}
    (h : (pyStrip l).head? = some c) : pyIsSpace c = false := by
  rw [pyStrip] at h
  have hne : stripR (stripL l) ≠ [] := by
    intro he
    rw [he] at h
    cases h
  rw [stripR_head? hne] at h
  exact stripL_head_not_space h

/-! ## Lifting occurrences through strips, slices and splits -/

theorem occ_strip_lift {z pat : List Char} {k : Nat}
    (h : pat.isPrefixOf ((pyStrip z).drop k) = true) :
    ∃ k', pat.isPrefixOf (z.drop k') = true := by
  rw [pyStrip] at h
  have hpre : stripR (stripL z) <+: stripL z := stripR_prefix (stripL z)
  rw [List.prefix_iff_eq_take] at hpre
  rw [hpre, List.drop_take] at h
  have h2 : pat.isPrefixOf ((stripL z).drop k) = true := isPrefixOf_of_take h
  obtain ⟨u, hu⟩ := stripL_suffix z
  refine ⟨u.length + k, ?_⟩
  rw [← hu, List.drop_append]
  exact h2

theorem occ_slice_lift {S pat : List Char} {a b k : Nat} (hne : pat ≠ [])
    (h : pat.isPrefixOf ((pySlice S a b).drop k) = true) :
    pat.isPrefixOf (S.drop (a + k)) = true ∧ a + k < b := by
  rw [pySlice, List.drop_drop] at h
  exact occ_take_lift hne h

theorem strip_slice_no_occ {S pat : List Char} {a j k : Nat} (hne : pat ≠ [])
    (hfc : pyFind S pat = some j)
    (h : pat.isPrefixOf ((pyStrip (pySlice S a j)).drop k) = true) : False := by
  obtain ⟨k', hk'⟩ := occ_strip_lift h
  obtain ⟨hocc, hlt⟩ := occ_slice_lift hne hk'
  exact (pyFind_some_elim hfc).2 (a + k') hlt hocc

theorem hasOcc_of_within {p x pat : List Char} (hne : pat ≠ [])
    (hinf : List.IsInfix p x) (h : hasOcc p pat) : hasOcc x pat := by
  obtain ⟨l, hl⟩ := h
  obtain ⟨s, t, hst⟩ := hinf
  have hlp : l < p.length := occ_lt_length hne hl
  refine ⟨s.length + l, ?_⟩
  rw [← hst, List.append_assoc, List.drop_append, drop_append_le (by omega)]
  rw [List.isPrefixOf_iff_prefix] at hl ⊢
  exact hl.trans (List.prefix_append _ t)

theorem pySplitF_within (sep : List Char) :
    ∀ (fuel : Nat) (x : List Char), ∀ p ∈ pySplitF sep fuel x, List.IsInfix p x := by
  intro fuel
  induction fuel with
  | zero =>
    intro x p hp
    simp only [pySplitF, List.mem_singleton] at hp
    subst hp
    exact List.infix_rfl
  | succ fuel ih =>
    intro x p hp
    simp only [pySplitF] at hp
    cases hf : pyFind x sep with
    | none =>
      rw [hf] at hp
      simp only [List.mem_singleton] at hp
      subst hp
      exact List.infix_rfl
    | some i =>
      rw [hf] at hp
      simp only [List.mem_cons] at hp
      rcases hp with rfl | hmem
      · exact (List.take_prefix i x).isInfix
      · exact (ih (x.drop (i + sep.length)) p hmem).trans (List.drop_suffix _ x).isInfix

theorem pySplit_within {sep x : List Char} : ∀ p ∈ pySplit sep x, List.IsInfix p x :=
  pySplitF_within sep (x.length + 1) x

theorem intercalate_nil (g : List Char) : List.intercalate g [] = [] := rfl

theorem intercalate_single (g b : List Char) : List.intercalate g [b] = b := by
  rw [List.intercalate, List.intersperse_singleton]
  simp

theorem intercalate_cons₂ (g b b' : List Char) (bs : List (List Char)) :
    List.intercalate g (b :: b' :: bs) = b ++ g ++ List.intercalate g (b' :: bs) := by
  rw [List.intercalate, List.intercalate, List.intersperse_cons_cons]
  simp [List.append_assoc]

theorem processParts_mem :
    ∀ (ps : List (List Char)) (ex : List CtxId) (b : List Char),
      b ∈ (processParts ps ex).1 → (∃ p ∈ ps, b = pyStrip p) ∧ b ≠ [] := by
  intro ps
  induction ps with
  | nil =>
    intro ex b hb
    rw [processParts] at hb
    cases hb
  | cons p rest ih =>
    intro ex b hb
    rw [processParts] at hb
    dsimp only at hb
    by_cases hemp : (pyStrip p).isEmpty
    · rw [if_pos hemp] at hb
      obtain ⟨⟨p', hp', hb'⟩, hne⟩ := ih ex b hb
      exact ⟨⟨p', List.mem_cons_of_mem _ hp', hb'⟩, hne⟩
    · rw [if_neg hemp] at hb
      cases hsi : searchId (pyStrip p) with
      | none =>
        rw [hsi] at hb
        obtain ⟨⟨p', hp', hb'⟩, hne⟩ := ih ex b hb
        exact ⟨⟨p', List.mem_cons_of_mem _ hp', hb'⟩, hne⟩
      | some q =>
        rw [hsi] at hb
        dsimp only at hb
        by_cases hq : q ∈ ex
        · rw [if_pos hq] at hb
          obtain ⟨⟨p', hp', hb'⟩, hne⟩ := ih ex b hb
          exact ⟨⟨p', List.mem_cons_of_mem _ hp', hb'⟩, hne⟩
        · rw [if_neg hq] at hb
          rcases List.mem_cons.mp hb with rfl | hb'
          · refine ⟨⟨p, List.mem_cons_self _ _, rfl⟩, ?_⟩
            intro he
            apply hemp
            rw [he]
            rfl
          · obtain ⟨⟨p', hp', hb''⟩, hne⟩ := ih (ex ++ [q]) b hb'
            exact ⟨⟨p', List.mem_cons_of_mem _ hp', hb''⟩, hne⟩

/-! ## No occurrence of `</knowledge_base>` in the rebuilt region -/

theorem no_close_in_take {S : List Char} {i j : Nat}
    (hfc : pyFind S kbCloseTag = some j) (hij : i ≤ j) :
    ¬ hasOcc (S.take i) kbCloseTag := by
  rintro ⟨l, hl⟩
  obtain ⟨hocc, hlt⟩ := occ_take_lift (by decide) hl
  exact (pyFind_some_elim hfc).2 l (by omega) hocc

theorem no_close_in_open_tag : ¬ hasOcc kbOpenTag kbCloseTag :=
  not_hasOcc_short (by decide)

theorem no_close_in_nl : ¬ hasOcc ['\n'] kbCloseTag :=
  not_hasOcc_short (by decide)

theorem no_close_in_strip_slice {S : List Char} {a j : Nat}
    (hfc : pyFind S kbCloseTag = some j) :
    ¬ hasOcc (pyStrip (pySlice S a j)) kbCloseTag := by
  rintro ⟨l, hl⟩
  exact strip_slice_no_occ (by decide) hfc hl

theorem no_close_in_C_part {C : List Char} (hC : pyFind C kbCloseTag = none)
    {b : List Char} (hb : ∃ p ∈ pySplit delim80 C, b = pyStrip p) :
    ¬ hasOcc b kbCloseTag := by
  intro hocc
  obtain ⟨p, hp, rfl⟩ := hb
  obtain ⟨l, hl⟩ := hocc
  obtain ⟨k', hk'⟩ := occ_strip_lift hl
  have hOC : hasOcc C kbCloseTag :=
    hasOcc_of_within (by decide) (pySplit_within p hp) ⟨k', hk'⟩
  obtain ⟨l2, hl2⟩ := hOC
  exact pyFind_none_iff.mp hC l2 hl2

theorem lt_char_not_mem_glue : '<' ∉ delim80 ++ ("\n\n").data := by
  intro h
  rcases List.mem_append.mp h with h | h
  · rw [delim80] at h
    exact absurd (List.eq_of_mem_replicate h) (by decide)
  · exact absurd h (by decide)

theorem no_close_in_glue : ¬ hasOcc (delim80 ++ ("\n\n").data) kbCloseTag :=
  not_hasOcc_head_notMem rfl lt_char_not_mem_glue

theorem no_close_intercalate :
    ∀ bs : List (List Char), (∀ b ∈ bs, ¬ hasOcc b kbCloseTag) →
      ¬ hasOcc (List.intercalate (delim80 ++ ("\n\n").data) bs) kbCloseTag := by
  intro bs
  induction bs with
  | nil =>
    intro _
    rw [intercalate_nil]
    exact not_hasOcc_short (by decide)
  | cons b bs' ih =>
    intro hb
    cases bs' with
    | nil =>
      rw [intercalate_single]
      exact hb b (List.mem_cons_self _ _)
    | cons b' bs'' =>
      rw [intercalate_cons₂, List.append_assoc]
      intro h
      rcases hasOcc_append_cases h with h1 | h1 | ⟨κ, hκ, hκ2, hsuf, hdrop⟩
      · exact hb b (List.mem_cons_self _ _) h1
      · rcases hasOcc_append_cases h1 with h2 | h2 | ⟨κ, hκ, hκ2, hsuf, hdrop⟩
        · exact no_close_in_glue h2
        · exact ih (fun x hx => hb x (List.mem_cons_of_mem _ hx)) h2
        · exact close_span_left_kill hκ hsuf lt_char_not_mem_glue
      · exact close_span_right_kill hκ hκ2 hdrop rfl (by decide)

theorem no_close_in_kb_newtext {S C : List Char} {i j : Nat}
    (hC : pyFind C kbCloseTag = none) :
    ¬ hasOcc (kb_newtext S C i j) kbCloseTag := by
  rw [kb_newtext]
  intro h
  have hch : kbCloseTag.head? = some '<' := rfl
  rcases hasOcc_append_cases h with h1 | h1 | ⟨κ, hκ, hκ2, hsuf, hdrop⟩
  · exact not_hasOcc_head_notMem hch (by decide) h1
  · refine no_close_intercalate (kb_blocks S C i j) ?_ h1
    intro b hb
    rw [kb_blocks] at hb
    exact no_close_in_C_part hC (processParts_mem _ _ b hb).1
  · exact close_span_left_kill hκ hsuf (by decide)

theorem no_close_in_kb_updated {S C : List Char} {i j : Nat}
    (hfc : pyFind S kbCloseTag = some j) (hC : pyFind C kbCloseTag = none) :
    ¬ hasOcc (kb_updated S C i j) kbCloseTag := by
  rw [kb_updated]
  by_cases he : (pyStrip (pySlice S (i + 16) j)).isEmpty
  · rw [if_pos he]
    rintro ⟨l, hl⟩
    obtain ⟨k', hk'⟩ := occ_strip_lift hl
    exact no_close_in_kb_newtext hC ⟨k', hk'⟩
  · rw [if_neg he]
    intro h
    rcases hasOcc_append_cases h with h1 | h1 | ⟨κ, hκ, hκ2, hsuf, hdrop⟩
    · exact no_close_in_strip_slice hfc h1
    · exact no_close_in_kb_newtext hC h1
    · exact close_span_right_kill hκ hκ2 hdrop rfl (by decide)

/-! ## The two branches of `_update_knowledge_base` when both sentinels exist -/

theorem update_of_blocks_empty {S C : List Char} {i j : Nat}
    (hfo : pyFind S kbOpenTag = some i) (hfc : pyFind S kbCloseTag = some j)
    (hbl : (kb_blocks S C i j).isEmpty = true) :
    update_knowledge_base S C = S := by
  rw [update_knowledge_base, hfo, hfc]
  dsimp only
  rw [kb_blocks] at hbl
  rw [if_pos hbl]

theorem update_of_blocks_nonempty {S C : List Char} {i j : Nat}
    (hfo : pyFind S kbOpenTag = some i) (hfc : pyFind S kbCloseTag = some j)
    (hbl : (kb_blocks S C i j).isEmpty = false) :
    update_knowledge_base S C =
      S.take i ++ kbOpenTag ++ ('\n' :: kb_updated S C i j) ++
        ('\n' :: kbCloseTag) ++ S.drop (j + 17) := by
  rw [update_knowledge_base, hfo, hfc]
  dsimp only
  rw [kb_blocks] at hbl
  rw [if_neg (by simp [hbl])]
  rfl

/-! ## Locating the sentinels in the rebuilt system message -/

theorem find_open_in_R {S : List Char} {i : Nat} (hfo : pyFind S kbOpenTag = some i)
    (B : List Char) :
    pyFind (S.take i ++ (kbOpenTag ++ B)) kbOpenTag = some i := by
  have hlt : i < S.length := occ_lt_length (by decide) (pyFind_some_elim hfo).1
  have hlen : (S.take i).length = i := by
    rw [List.length_take]
    omega
  have hh : (kbOpenTag ++ B).head? = some '<' := rfl
  have hns : noStartIn kbOpenTag (S.take i) (kbOpenTag ++ B) := by
    apply noStartIn_intro (pyFind_take_none (by decide) hfo)
    intro c hc
    rw [hh] at hc
    have hc' : c = '<' := (Option.some.inj hc).symm
    subst hc'
    decide
  have h := pyFind_append_at hns
  rw [hlen] at h
  exact h

theorem no_close_in_prefix_R {S C : List Char} {i j : Nat}
    (hfc : pyFind S kbCloseTag = some j) (hij : i ≤ j)
    (hC : pyFind C kbCloseTag = none) :
    ¬ hasOcc (S.take i ++ (kbOpenTag ++ ('\n' :: (kb_updated S C i j ++ ['\n']))))
      kbCloseTag := by
  intro h
  rcases hasOcc_append_cases h with h1 | h1 | ⟨κ, hκ, hκ2, hsuf, hdrop⟩
  · exact no_close_in_take hfc hij h1
  · rcases hasOcc_append_cases h1 with h2 | h2 | ⟨κ, hκ, hκ2, hsuf, hdrop⟩
    · exact no_close_in_open_tag h2
    · rw [show ('\n' :: (kb_updated S C i j ++ ['\n'])) =
        ['\n'] ++ (kb_updated S C i j ++ ['\n']) from rfl] at h2
      rcases hasOcc_append_cases h2 with h3 | h3 | ⟨κ, hκ, hκ2, hsuf, hdrop⟩
      · exact no_close_in_nl h3
      · rcases hasOcc_append_cases h3 with h4 | h4 | ⟨κ, hκ, hκ2, hsuf, hdrop⟩
        · exact no_close_in_kb_updated hfc hC h4
        · exact no_close_in_nl h4
        · exact close_span_right_kill hκ hκ2 hdrop rfl (by decide)
      · exact close_span_left_kill hκ hsuf (by decide)
    · exact close_span_right_kill hκ hκ2 hdrop rfl (by decide)
  · exact close_span_right_kill hκ hκ2 hdrop rfl (by decide)

theorem find_close_in_R {S C : List Char} {i j : Nat}
    (hfo : pyFind S kbOpenTag = some i) (hfc : pyFind S kbCloseTag = some j)
    (hij : i ≤ j) (hC : pyFind C kbCloseTag = none) :
    pyFind (S.take i ++ kbOpenTag ++ ('\n' :: kb_updated S C i j) ++
        ('\n' :: kbCloseTag) ++ S.drop (j + 17)) kbCloseTag =
      some (i + 18 + (kb_updated S C i j).length) := by
  have hlt : i < S.length := occ_lt_length (by decide) (pyFind_some_elim hfo).1
  have hshape : S.take i ++ kbOpenTag ++ ('\n' :: kb_updated S C i j) ++
      ('\n' :: kbCloseTag) ++ S.drop (j + 17) =
      (S.take i ++ (kbOpenTag ++ ('\n' :: (kb_updated S C i j ++ ['\n'])))) ++
        (kbCloseTag ++ S.drop (j + 17)) := by
    simp [List.append_assoc]
  rw [hshape]
  have hns : noStartIn kbCloseTag
      (S.take i ++ (kbOpenTag ++ ('\n' :: (kb_updated S C i j ++ ['\n']))))
      (kbCloseTag ++ S.drop (j + 17)) := by
    apply noStartIn_intro
    · rw [pyFind_none_iff]
      intro l hl
      exact no_close_in_prefix_R hfc hij hC ⟨l, hl⟩
    · intro c hc
      have hh : (kbCloseTag ++ S.drop (j + 17)).head? = some '<' := rfl
      rw [hh] at hc
      have hc' : c = '<' := (Option.some.inj hc).symm
      subst hc'
      decide
  have h := pyFind_append_at hns
  rw [h]
  congr 1
  have h16 : kbOpenTag.length = 16 := by decide
  simp [List.length_append, List.length_take, h16]
  omega

/-! ## The knowledge-base region of the rebuilt message -/

theorem take_head? {l : List Char} {t : Nat} (ht : 0 < t) :
    (l.take t).head? = l.head? := by
  cases l with
  | nil => simp
  | cons a as =>
    cases t with
    | zero => omega
    | succ m =>
      rw [List.take_succ_cons]
      rfl

theorem pyStrip_region {kbc Y : List Char} (hne : kbc ≠ [])
    (hhead : ∀ c, kbc.head? = some c → pyIsSpace c = false)
    (hR : stripR kbc = kbc) :
    pyStrip ('\n' :: (kbc ++ Y)) =
      if (stripR Y).isEmpty then kbc else kbc ++ stripR Y := by
  rw [pyStrip, stripL]
  rw [List.dropWhile_cons_of_pos (by decide)]
  cases kbc with
  | nil => exact absurd rfl hne
  | cons c cs =>
    have hc : pyIsSpace c = false := hhead c rfl
    rw [List.cons_append, List.dropWhile_cons_of_neg (by simp [hc]), ← List.cons_append]
    rw [stripR_append]
    by_cases hY : (stripR Y).isEmpty
    · rw [if_pos hY, if_pos hY, hR]
    · rw [if_neg hY, if_neg hY]

theorem kb_region_ids_none_open {S : List Char} (h : pyFind S kbOpenTag = none) :
    kb_region_ids S = [] := by
  rw [kb_region_ids, h]

theorem kb_region_ids_none_close {S : List Char} {i : Nat}
    (ho : pyFind S kbOpenTag = some i) (h : pyFind S kbCloseTag = none) :
    kb_region_ids S = [] := by
  rw [kb_region_ids, ho, h]

theorem kb_region_ids_some {S : List Char} {i j : Nat}
    (ho : pyFind S kbOpenTag = some i) (hc : pyFind S kbCloseTag = some j) :
    kb_region_ids S = extract_context_identifiers (pyStrip (pySlice S (i + 16) j)) := by
  rw [kb_region_ids, ho, hc]

theorem no_close_in_W {S : List Char} {i j : Nat}
    (hfc : pyFind S kbCloseTag = some j) (hij : i ≤ j) :
    ¬ hasOcc (S.take i ++ (kbOpenTag ++ ('\n' :: pyStrip (pySlice S (i + 16) j))))
      kbCloseTag := by
  intro h
  rcases hasOcc_append_cases h with h1 | h1 | ⟨κ, hκ, hκ2, hsuf, hdrop⟩
  · exact no_close_in_take hfc hij h1
  · rcases hasOcc_append_cases h1 with h2 | h2 | ⟨κ, hκ, hκ2, hsuf, hdrop⟩
    · exact no_close_in_open_tag h2
    · rw [show ('\n' :: pyStrip (pySlice S (i + 16) j)) =
        ['\n'] ++ pyStrip (pySlice S (i + 16) j) from rfl] at h2
      rcases hasOcc_append_cases h2 with h3 | h3 | ⟨κ, hκ, hκ2, hsuf, hdrop⟩
      · exact no_close_in_nl h3
      · exact no_close_in_strip_slice hfc h3
      · exact close_span_left_kill hκ hsuf (by decide)
    · exact close_span_right_kill hκ hκ2 hdrop rfl (by decide)
  · exact close_span_right_kill hκ hκ2 hdrop rfl (by decide)

/-- C2: the knowledge-base merge never removes an identity pair.  Every
`(filename, chunk_idx)` pair extractable from the knowledge-base region of a
system message `S` (the region located and parsed exactly as
`_update_knowledge_base` does) is still extractable from the region of
`_update_knowledge_base(S, C)`, for every `S` and every context batch `C`. -/
theorem kb_region_ids_superset (S C : List Char) :
    ∀ q ∈ kb_region_ids S, q ∈ kb_region_ids (update_knowledge_base S C) := by
  intro q hq
  cases hfo : pyFind S kbOpenTag with
  | none =>
    rw [kb_region_ids_none_open hfo] at hq
    cases hq
  | some i =>
  cases hfc : pyFind S kbCloseTag with
  | none =>
    rw [kb_region_ids_none_close hfo hfc] at hq
    cases hq
  | some j =>
  rw [kb_region_ids_some hfo hfc] at hq
  by_cases hknil : pyStrip (pySlice S (i + 16) j) = []
  · rw [hknil, extract_nil] at hq
    cases hq
  have hslice_ne : pySlice S (i + 16) j ≠ [] := by
    intro h
    apply hknil
    rw [h, pyStrip_nil]
  have hj16 : i + 16 < j ∧ i + 16 < S.length := by
    by_contra hcon
    apply hslice_ne
    rw [pySlice]
    apply List.drop_eq_nil_of_le
    rw [List.length_take]
    omega
  by_cases hbl : (kb_blocks S C i j).isEmpty
  · rw [update_of_blocks_empty hfo hfc hbl, kb_region_ids_some hfo hfc]
    exact hq
  have hbl' : (kb_blocks S C i j).isEmpty = false := by
    cases h : (kb_blocks S C i j).isEmpty
    · rfl
    · exact absurd h hbl
  rw [update_of_blocks_nonempty hfo hfc hbl']
  have hupd : kb_updated S C i j =
      pyStrip (pySlice S (i + 16) j) ++ kb_newtext S C i j := by
    rw [kb_updated, if_neg (by rw [List.isEmpty_iff]; exact hknil)]
  have hlt : i < S.length := occ_lt_length (by decide) (pyFind_some_elim hfo).1
  have hlen_take : (S.take i).length = i := by
    rw [List.length_take]
    omega
  -- the open sentinel of the rebuilt message is still at position i
  have hRopen : pyFind (S.take i ++ kbOpenTag ++ ('\n' :: kb_updated S C i j) ++
      ('\n' :: kbCloseTag) ++ S.drop (j + 17)) kbOpenTag = some i := by
    have hsh : S.take i ++ kbOpenTag ++ ('\n' :: kb_updated S C i j) ++
        ('\n' :: kbCloseTag) ++ S.drop (j + 17) =
        S.take i ++ (kbOpenTag ++ (('\n' :: kb_updated S C i j) ++
          (('\n' :: kbCloseTag) ++ S.drop (j + 17)))) := by
      simp [List.append_assoc]
    rw [hsh]
    exact find_open_in_R hfo _
  -- the rebuilt message, decomposed at the head of the old region
  have hshapeW : S.take i ++ kbOpenTag ++ ('\n' :: kb_updated S C i j) ++
      ('\n' :: kbCloseTag) ++ S.drop (j + 17) =
      (S.take i ++ (kbOpenTag ++ ('\n' :: pyStrip (pySlice S (i + 16) j)))) ++
        (kb_newtext S C i j ++ (('\n' :: kbCloseTag) ++ S.drop (j + 17))) := by
    rw [hupd]
    simp [List.append_assoc]
  have hlenW : (S.take i ++ (kbOpenTag ++
      ('\n' :: pyStrip (pySlice S (i + 16) j)))).length =
      i + 17 + (pyStrip (pySlice S (i + 16) j)).length := by
    have h16 : kbOpenTag.length = 16 := by decide
    simp [List.length_append, hlen_take, h16]
    omega
  -- a closing sentinel occurs in the rebuilt message
  have hoccR : kbCloseTag.isPrefixOf ((S.take i ++ kbOpenTag ++
      ('\n' :: kb_updated S C i j) ++ ('\n' :: kbCloseTag) ++
      S.drop (j + 17)).drop ((S.take i ++ kbOpenTag ++
      ('\n' :: kb_updated S C i j) ++ ['\n']).length)) = true := by
    have hsh : S.take i ++ kbOpenTag ++ ('\n' :: kb_updated S C i j) ++
        ('\n' :: kbCloseTag) ++ S.drop (j + 17) =
        (S.take i ++ kbOpenTag ++ ('\n' :: kb_updated S C i j) ++ ['\n']) ++
          (kbCloseTag ++ S.drop (j + 17)) := by
      simp [List.append_assoc]
    rw [hsh, List.drop_left, List.isPrefixOf_iff_prefix]
    exact List.prefix_append _ _
  cases hRc : pyFind (S.take i ++ kbOpenTag ++ ('\n' :: kb_updated S C i j) ++
      ('\n' :: kbCloseTag) ++ S.drop (j + 17)) kbCloseTag with
  | none => exact absurd hoccR (pyFind_none_iff.mp hRc _)
  | some jR =>
  -- jR is at least i + 17 + kbc.length
  have hWns : noStartIn kbCloseTag
      (S.take i ++ (kbOpenTag ++ ('\n' :: pyStrip (pySlice S (i + 16) j))))
      (kb_newtext S C i j ++ (('\n' :: kbCloseTag) ++ S.drop (j + 17))) := by
    apply noStartIn_intro
    · rw [pyFind_none_iff]
      intro l hl
      exact no_close_in_W hfc (by omega) ⟨l, hl⟩
    · intro c hc
      have hh : (kb_newtext S C i j ++
          (('\n' :: kbCloseTag) ++ S.drop (j + 17))).head? = some '\n' := rfl
      rw [hh] at hc
      have hc' : c = '\n' := (Option.some.inj hc).symm
      subst hc'
      decide
  have hjR : i + 17 + (pyStrip (pySlice S (i + 16) j)).length ≤ jR := by
    by_contra hcon
    push_neg at hcon
    have hocc := (pyFind_some_elim hRc).1
    rw [hshapeW] at hocc
    rw [drop_append_le (by omega)] at hocc
    refine hWns ((S.take i ++ (kbOpenTag ++
        ('\n' :: pyStrip (pySlice S (i + 16) j)))).drop jR)
      (List.drop_suffix _ _) ?_ hocc
    intro hnil
    have := congrArg List.length hnil
    rw [List.length_drop, List.length_nil] at this
    omega
  -- the region slice of the rebuilt message
  have hdropR : (S.take i ++ kbOpenTag ++ ('\n' :: kb_updated S C i j) ++
      ('\n' :: kbCloseTag) ++ S.drop (j + 17)).drop (i + 16) =
      '\n' :: (pyStrip (pySlice S (i + 16) j) ++
        (kb_newtext S C i j ++ (('\n' :: kbCloseTag) ++ S.drop (j + 17)))) := by
    have hsh : S.take i ++ kbOpenTag ++ ('\n' :: kb_updated S C i j) ++
        ('\n' :: kbCloseTag) ++ S.drop (j + 17) =
        (S.take i ++ kbOpenTag) ++
          ('\n' :: (pyStrip (pySlice S (i + 16) j) ++
            (kb_newtext S C i j ++ (('\n' :: kbCloseTag) ++ S.drop (j + 17))))) := by
      rw [hupd]
      simp [List.append_assoc]
    rw [hsh]
    rw [show i + 16 = (S.take i ++ kbOpenTag).length by
      simp [List.length_append, hlen_take]; decide]
    exact List.drop_left _ _
  have hsliceR : pySlice (S.take i ++ kbOpenTag ++ ('\n' :: kb_updated S C i j) ++
      ('\n' :: kbCloseTag) ++ S.drop (j + 17)) (i + 16) jR =
      '\n' :: (pyStrip (pySlice S (i + 16) j) ++
        (kb_newtext S C i j ++ (('\n' :: kbCloseTag) ++ S.drop (j + 17))).take
          (jR - (i + 16) - 1 - (pyStrip (pySlice S (i + 16) j)).length)) := by
    rw [pySlice, List.drop_take, hdropR]
    rw [show jR - (i + 16) = (jR - (i + 16) - 1) + 1 by omega, List.take_succ_cons]
    rw [show jR - (i + 16) - 1 = (pyStrip (pySlice S (i + 16) j)).length +
      (jR - (i + 16) - 1 - (pyStrip (pySlice S (i + 16) j)).length) by omega]
    rw [List.take_append]
    congr 3
    omega
  -- conclude via monotonicity of extraction under append
  rw [kb_region_ids_some hRopen hRc, hsliceR]
  rw [pyStrip_region hknil (fun c hc => pyStrip_head_not_space hc)
    (stripR_pyStrip _)]
  by_cases hY : (stripR ((kb_newtext S C i j ++ (('\n' :: kbCloseTag) ++
      S.drop (j + 17))).take
        (jR - (i + 16) - 1 - (pyStrip (pySlice S (i + 16) j)).length))).isEmpty
  · rw [if_pos hY]
    exact hq
  · rw [if_neg hY]
    have hYne : stripR ((kb_newtext S C i j ++ (('\n' :: kbCloseTag) ++
        S.drop (j + 17))).take
          (jR - (i + 16) - 1 - (pyStrip (pySlice S (i + 16) j)).length)) ≠ [] := by
      intro h
      apply hY
      rw [h]
      rfl
    have hYne2 : (kb_newtext S C i j ++ (('\n' :: kbCloseTag) ++
        S.drop (j + 17))).take
          (jR - (i + 16) - 1 - (pyStrip (pySlice S (i + 16) j)).length) ≠ [] := by
      intro h
      apply hYne
      rw [h]
      rfl
    have ht0 : 0 < jR - (i + 16) - 1 - (pyStrip (pySlice S (i + 16) j)).length := by
      by_contra h0
      push_neg at h0
      apply hYne2
      rw [Nat.le_zero.mp h0]
      rfl
    have hhd : (stripR ((kb_newtext S C i j ++ (('\n' :: kbCloseTag) ++
        S.drop (j + 17))).take
          (jR - (i + 16) - 1 - (pyStrip (pySlice S (i + 16) j)).length))).head? =
        some '\n' := by
      rw [stripR_head? hYne, take_head? ht0]
      rfl
    have hnd : nonDigitHead (stripR ((kb_newtext S C i j ++
        (('\n' :: kbCloseTag) ++ S.drop (j + 17))).take
          (jR - (i + 16) - 1 - (pyStrip (pySlice S (i + 16) j)).length))) := by
      intro c hc
      rw [hhd] at hc
      have hc' : c = '\n' := (Option.some.inj hc).symm
      subst hc'
      decide
    exact extract_append_superset hnd (pyStrip (pySlice S (i + 16) j)).length _
      le_rfl q hq

/-- C10 (amended): when the system content holds the open sentinel (fully)
before the close sentinel and the context batch contains no close sentinel,
`_update_knowledge_base` changes only the text between the sentinels: the
prefix before `<knowledge_base>` and the suffix after `</knowledge_base>` of
the result equal those of the input. -/
theorem update_frame (S C : List Char) {i j : Nat}
    (hfo : pyFind S kbOpenTag = some i) (hfc : pyFind S kbCloseTag = some j)
    (hij : i + 16 ≤ j) (hC : pyFind C kbCloseTag = none) :
    kb_before (update_knowledge_base S C) = kb_before S ∧
    kb_after (update_knowledge_base S C) = kb_after S := by
  by_cases hbl : (kb_blocks S C i j).isEmpty
  · rw [update_of_blocks_empty hfo hfc hbl]
    exact ⟨rfl, rfl⟩
  have hbl' : (kb_blocks S C i j).isEmpty = false := by
    cases h : (kb_blocks S C i j).isEmpty
    · rfl
    · exact absurd h hbl
  rw [update_of_blocks_nonempty hfo hfc hbl']
  have hlt : i < S.length := occ_lt_length (by decide) (pyFind_some_elim hfo).1
  have hlen_take : (S.take i).length = i := by
    rw [List.length_take]
    omega
  have h16 : kbOpenTag.length = 16 := by decide
  have h17 : kbCloseTag.length = 17 := by decide
  have hRopen : pyFind (S.take i ++ kbOpenTag ++ ('\n' :: kb_updated S C i j) ++
      ('\n' :: kbCloseTag) ++ S.drop (j + 17)) kbOpenTag = some i := by
    have hsh : S.take i ++ kbOpenTag ++ ('\n' :: kb_updated S C i j) ++
        ('\n' :: kbCloseTag) ++ S.drop (j + 17) =
        S.take i ++ (kbOpenTag ++ (('\n' :: kb_updated S C i j) ++
          (('\n' :: kbCloseTag) ++ S.drop (j + 17)))) := by
      simp [List.append_assoc]
    rw [hsh]
    exact find_open_in_R hfo _
  have hRclose := find_close_in_R hfo hfc (by omega) hC
  constructor
  · simp only [kb_before]
    rw [hRopen, hfo]
    have htake : (S.take i ++ kbOpenTag ++ ('\n' :: kb_updated S C i j) ++
        ('\n' :: kbCloseTag) ++ S.drop (j + 17)).take i = S.take i := by
      have hsh : S.take i ++ kbOpenTag ++ ('\n' :: kb_updated S C i j) ++
          ('\n' :: kbCloseTag) ++ S.drop (j + 17) =
          S.take i ++ (kbOpenTag ++ (('\n' :: kb_updated S C i j) ++
            (('\n' :: kbCloseTag) ++ S.drop (j + 17)))) := by
        simp [List.append_assoc]
      rw [hsh]
      exact List.take_left' hlen_take
    rw [Option.map_some', Option.map_some', htake]
  · simp only [kb_after]
    rw [hRclose, hfc]
    have hdrop : (S.take i ++ kbOpenTag ++ ('\n' :: kb_updated S C i j) ++
        ('\n' :: kbCloseTag) ++ S.drop (j + 17)).drop
          (i + 18 + (kb_updated S C i j).length + 17) = S.drop (j + 17) := by
      rw [show i + 18 + (kb_updated S C i j).length + 17 =
        (S.take i ++ kbOpenTag ++ ('\n' :: kb_updated S C i j) ++
          ('\n' :: kbCloseTag)).length by
          simp [List.length_append, hlen_take, h16, h17]
          omega]
      exact List.drop_left _ _
    rw [Option.map_some', Option.map_some', hdrop]

/-- Counterexample to C10 as stated: a system content holding both sentinels
for which the merge changes the suffix after the first `</knowledge_base>`
(the context batch itself carries a close sentinel, which lands inside the
rebuilt region). -/
theorem update_frame_counterexample :
    (pyFind ("<knowledge_base>\n</knowledge_base>").data kbOpenTag).isSome = true ∧
    (pyFind ("<knowledge_base>\n</knowledge_base>").data kbCloseTag).isSome = true ∧
    kb_after (update_knowledge_base ("<knowledge_base>\n</knowledge_base>").data
        ("foo\n</knowledge_base>\nSource: b.pdf (Chunk 2, s)").data) ≠
      kb_after ("<knowledge_base>\n</knowledge_base>").data := by
  refine ⟨by decide, by decide, by decide⟩

theorem update_frame_witness :
    pyFind ("<knowledge_base>\n</knowledge_base>").data kbOpenTag = some 0 ∧
    pyFind ("[Context 1] Source: a.pdf (Chunk 1, Relevance Score: 0.9)\nTax facts").data
      kbCloseTag = none ∧
    (kb_before (update_knowledge_base ("<knowledge_base>\n</knowledge_base>").data
        ("[Context 1] Source: a.pdf (Chunk 1, Relevance Score: 0.9)\nTax facts").data) =
      kb_before ("<knowledge_base>\n</knowledge_base>").data ∧
     kb_after (update_knowledge_base ("<knowledge_base>\n</knowledge_base>").data
        ("[Context 1] Source: a.pdf (Chunk 1, Relevance Score: 0.9)\nTax facts").data) =
      kb_after ("<knowledge_base>\n</knowledge_base>").data) :=
  ⟨by decide, by decide,
    @update_frame ("<knowledge_base>\n</knowledge_base>").data
      ("[Context 1] Source: a.pdf (Chunk 1, Relevance Score: 0.9)\nTax facts").data
      0 17 (by decide) (by decide) (by decide) (by decide)⟩

theorem head?_append_left {b X : List Char} (hb : b ≠ []) :
    (b ++ X).head? = b.head? := by
  cases b with
  | nil => exact absurd rfl hb
  | cons c cs => rfl

theorem stripL_eq_self_of_head {l : List Char}
    (h : ∀ c, l.head? = some c → pyIsSpace c = false) : stripL l = l := by
  cases l with
  | nil => rfl
  | cons c cs =>
    have hc := h c rfl
    rw [stripL, List.dropWhile_cons_of_neg (by simp [hc])]

theorem searchId_mem_extract {b : List Char} {q : CtxId} (h : searchId b = some q) :
    q ∈ extract_context_identifiers b := by
  rw [searchId] at h
  cases hs : searchStep b with
  | none =>
    rw [hs] at h
    cases h
  | some pr =>
    rw [hs] at h
    obtain ⟨q', rest⟩ := pr
    have hq : q' = q := by simpa using h
    subst hq
    rw [extract_eq, hs]
    exact List.mem_cons_self _ _

theorem noStartIn_srcLit_of_head {x y : List Char} (h : ∀ c ∈ x, c ≠ 'S') :
    noStartIn srcLit x y :=
  noStartIn_of_head h

theorem glue_no_S : ∀ c ∈ delim80 ++ ("\n\n").data, c ≠ 'S' := by
  intro c hc
  rcases List.mem_append.mp hc with hc | hc
  · rw [delim80] at hc
    rw [List.eq_of_mem_replicate hc]
    decide
  · have : ∀ c ∈ ("\n\n").data, c ≠ 'S' := by decide
    exact this c hc

theorem extract_intercalate_mem :
    ∀ bs : List (List Char),
      (∀ b ∈ bs, pyFind (scanTail b) srcLit = none) →
      ∀ (q : CtxId) (b₀ : List Char), b₀ ∈ bs →
        q ∈ extract_context_identifiers b₀ →
        q ∈ extract_context_identifiers
          (List.intercalate (delim80 ++ ("\n\n").data) bs) := by
  intro bs
  induction bs with
  | nil =>
    intro _ q b₀ hb₀
    cases hb₀
  | cons b bs' ih =>
    intro hres q b₀ hb₀ hq
    cases bs' with
    | nil =>
      rw [List.mem_singleton] at hb₀
      subst hb₀
      rw [intercalate_single]
      exact hq
    | cons b' bs'' =>
      rw [intercalate_cons₂, List.append_assoc]
      have hgh : ((delim80 ++ ("\n\n").data) ++
          List.intercalate (delim80 ++ ("\n\n").data) (b' :: bs'')).head? =
          some '=' := rfl
      have hy : nonDigitHead ((delim80 ++ ("\n\n").data) ++
          List.intercalate (delim80 ++ ("\n\n").data) (b' :: bs'')) := by
        intro c hc
        rw [hgh] at hc
        have hc' : c = '=' := (Option.some.inj hc).symm
        subst hc'
        decide
      rcases List.mem_cons.mp hb₀ with rfl | hb₀'
      · exact extract_append_superset hy b₀.length b₀ le_rfl q hq
      · rw [extract_append_decomp hy b.length b le_rfl]
        apply List.mem_append_right
        have hs1 : noStartIn srcLit (scanTail b) ((delim80 ++ ("\n\n").data) ++
            List.intercalate (delim80 ++ ("\n\n").data) (b' :: bs'')) := by
          apply noStartIn_intro (hres b (List.mem_cons_self _ _))
          intro c hc
          rw [hgh] at hc
          have hc' : c = '=' := (Option.some.inj hc).symm
          subst hc'
          decide
        have hs2 : noStartIn srcLit (delim80 ++ ("\n\n").data)
            (List.intercalate (delim80 ++ ("\n\n").data) (b' :: bs'')) :=
          noStartIn_srcLit_of_head glue_no_S
        rw [extract_skip hs1, extract_skip hs2]
        exact ih (fun x hx => hres x (List.mem_cons_of_mem _ hx)) q b₀ hb₀' hq

theorem processParts_drop_all :
    ∀ (ps : List (List Char)) (ex ex' : List CtxId),
      (∀ q ∈ ex, q ∈ ex') →
      (∀ b ∈ (processParts ps ex).1, ∀ q, searchId b = some q → q ∈ ex') →
      (processParts ps ex').1 = [] := by
  intro ps
  induction ps with
  | nil =>
    intro ex ex' h1 h2
    rw [processParts]
  | cons p rest ih =>
    intro ex ex' h1 h2
    rw [processParts]
    dsimp only
    by_cases hemp : (pyStrip p).isEmpty
    · rw [if_pos hemp]
      apply ih ex ex' h1
      intro b hb q hq
      apply h2 b ?_ q hq
      rw [processParts]
      dsimp only
      rw [if_pos hemp]
      exact hb
    · rw [if_neg hemp]
      cases hsi : searchId (pyStrip p) with
      | none =>
        apply ih ex ex' h1
        intro b hb q hq
        apply h2 b ?_ q hq
        rw [processParts]
        dsimp only
        rw [if_neg hemp, hsi]
        exact hb
      | some q₀ =>
        by_cases hqex : q₀ ∈ ex
        · have hq' : q₀ ∈ ex' := h1 q₀ hqex
          dsimp only
          rw [if_pos hq']
          apply ih ex ex' h1
          intro b hb q hq
          apply h2 b ?_ q hq
          rw [processParts]
          dsimp only
          rw [if_neg hemp, hsi]
          dsimp only
          rw [if_pos hqex]
          exact hb
        · have hfirst : (processParts (p :: rest) ex).1 =
              pyStrip p :: (processParts rest (ex ++ [q₀])).1 := by
            rw [processParts]
            dsimp only
            rw [if_neg hemp, hsi]
            dsimp only
            rw [if_neg hqex]
          have hq' : q₀ ∈ ex' := by
            apply h2 (pyStrip p) ?_ q₀ hsi
            rw [hfirst]
            exact List.mem_cons_self _ _
          dsimp only
          rw [if_pos hq']
          apply ih (ex ++ [q₀]) ex'
          · intro q hq
            rcases List.mem_append.mp hq with hq | hq
            · exact h1 q hq
            · rw [List.mem_singleton] at hq
              subst hq
              exact hq'
          · intro b hb q hq
            apply h2 b ?_ q hq
            rw [hfirst]
            exact List.mem_cons_of_mem _ hb

theorem stripR_intercalate_blocks :
    ∀ bs : List (List Char), bs ≠ [] → (∀ b ∈ bs, stripR b = b ∧ b ≠ []) →
      stripR (List.intercalate (delim80 ++ ("\n\n").data) bs) =
        List.intercalate (delim80 ++ ("\n\n").data) bs ∧
      List.intercalate (delim80 ++ ("\n\n").data) bs ≠ [] := by
  intro bs
  induction bs with
  | nil =>
    intro h _
    exact absurd rfl h
  | cons b bs' ih =>
    intro _ hb
    cases bs' with
    | nil =>
      rw [intercalate_single]
      exact hb b (List.mem_cons_self _ _)
    | cons b' bs'' =>
      obtain ⟨ihR, ihne⟩ := ih (by simp) (fun x hx => hb x (List.mem_cons_of_mem _ hx))
      rw [intercalate_cons₂]
      constructor
      · rw [stripR_append]
        rw [if_neg (by rw [List.isEmpty_iff, ihR]; exact ihne)]
        rw [ihR]
      · intro h
        rw [List.append_eq_nil] at h
        exact ihne h.2

theorem intercalate_head? {b : List Char} {bs : List (List Char)} (hb : b ≠ []) :
    (List.intercalate (delim80 ++ ("\n\n").data) (b :: bs)).head? = b.head? := by
  cases bs with
  | nil =>
    rw [intercalate_single]
  | cons b' bs' =>
    rw [intercalate_cons₂, List.append_assoc]
    exact head?_append_left hb

/-- Properties of `updated_kb` when the block list is non-empty: it is
non-empty, starts with a non-whitespace character, and is right-stripped. -/
theorem kb_updated_props {S C : List Char} {i j : Nat}
    (hbl : kb_blocks S C i j ≠ []) :
    kb_updated S C i j ≠ [] ∧
    (∀ c, (kb_updated S C i j).head? = some c → pyIsSpace c = false) ∧
    stripR (kb_updated S C i j) = kb_updated S C i j := by
  obtain ⟨b, bs, hbs⟩ : ∃ b bs, kb_blocks S C i j = b :: bs := by
    cases h : kb_blocks S C i j with
    | nil => exact absurd h hbl
    | cons b bs => exact ⟨b, bs, rfl⟩
  have hprops : ∀ x ∈ kb_blocks S C i j, stripR x = x ∧ x ≠ [] := by
    intro x hx
    rw [kb_blocks] at hx
    obtain ⟨⟨p, hp, hxp⟩, hne⟩ := processParts_mem _ _ x hx
    subst hxp
    exact ⟨stripR_pyStrip p, hne⟩
  have hI := stripR_intercalate_blocks (kb_blocks S C i j) hbl hprops
  have hbne : b ≠ [] := (hprops b (by rw [hbs]; exact List.mem_cons_self _ _)).2
  have hbhead : ∀ c, b.head? = some c → pyIsSpace c = false := by
    intro c hc
    have hx := hprops b (by rw [hbs]; exact List.mem_cons_self _ _)
    rw [kb_blocks] at hbs
    have hmem : b ∈ (processParts (pySplit delim80 C)
        (extract_context_identifiers (pyStrip (pySlice S (i + 16) j)))).1 := by
      rw [hbs]
      exact List.mem_cons_self _ _
    obtain ⟨⟨p, hp, hbp⟩, -⟩ := processParts_mem _ _ b hmem
    subst hbp
    exact pyStrip_head_not_space hc
  -- the combined text and its strip structure
  have hIhead : (List.intercalate (delim80 ++ ("\n\n").data)
      (kb_blocks S C i j)).head? = b.head? := by
    rw [hbs]
    exact intercalate_head? hbne
  have hnewR : stripR (kb_newtext S C i j) = kb_newtext S C i j ∧
      kb_newtext S C i j ≠ [] := by
    constructor
    · rw [kb_newtext, stripR_append]
      rw [if_neg (by rw [List.isEmpty_iff, hI.1]; exact hI.2)]
      rw [hI.1]
    · rw [kb_newtext]
      intro h
      rw [List.append_eq_nil] at h
      exact absurd h.1 (by decide)
  have hnewhead : (kb_newtext S C i j).head? = some '\n' := rfl
  rw [kb_updated]
  by_cases hke : (pyStrip (pySlice S (i + 16) j)).isEmpty
  · rw [if_pos hke]
    -- updated = pyStrip newtext = intercalate of the blocks
    have hslnew : stripL (kb_newtext S C i j) =
        List.intercalate (delim80 ++ ("\n\n").data) (kb_blocks S C i j) := by
      rw [kb_newtext, stripL, List.dropWhile_append]
      rw [if_pos (by decide)]
      have hsl : stripL (List.intercalate (delim80 ++ ("\n\n").data)
          (kb_blocks S C i j)) =
          List.intercalate (delim80 ++ ("\n\n").data) (kb_blocks S C i j) :=
        stripL_eq_self_of_head (fun c hc => by rw [hIhead] at hc; exact hbhead c hc)
      rw [stripL] at hsl
      exact hsl
    have hstrip : pyStrip (kb_newtext S C i j) =
        List.intercalate (delim80 ++ ("\n\n").data) (kb_blocks S C i j) := by
      rw [pyStrip, hslnew, hI.1]
    rw [hstrip]
    refine ⟨hI.2, ?_, hI.1⟩
    intro c hc
    rw [hIhead] at hc
    exact hbhead c hc
  · rw [if_neg hke]
    have hkne : pyStrip (pySlice S (i + 16) j) ≠ [] := by
      intro h
      apply hke
      rw [List.isEmpty_iff]
      exact h
    refine ⟨by simp [hkne], ?_, ?_⟩
    · intro c hc
      rw [head?_append_left hkne] at hc
      exact pyStrip_head_not_space hc
    · rw [stripR_append]
      rw [if_neg (by rw [List.isEmpty_iff, hnewR.1]; exact hnewR.2)]
      rw [hnewR.1]

theorem pyStrip_kb_newtext {S C : List Char} {i j : Nat}
    (hbl : kb_blocks S C i j ≠ []) :
    pyStrip (kb_newtext S C i j) =
      List.intercalate (delim80 ++ ("\n\n").data) (kb_blocks S C i j) := by
  obtain ⟨b, bs, hbs⟩ : ∃ b bs, kb_blocks S C i j = b :: bs := by
    cases h : kb_blocks S C i j with
    | nil => exact absurd h hbl
    | cons b bs => exact ⟨b, bs, rfl⟩
  have hprops : ∀ x ∈ kb_blocks S C i j, stripR x = x ∧ x ≠ [] := by
    intro x hx
    rw [kb_blocks] at hx
    obtain ⟨⟨p, hp, hxp⟩, hne⟩ := processParts_mem _ _ x hx
    subst hxp
    exact ⟨stripR_pyStrip p, hne⟩
  have hI := stripR_intercalate_blocks (kb_blocks S C i j) hbl hprops
  have hbmem : b ∈ kb_blocks S C i j := by
    rw [hbs]
    exact List.mem_cons_self _ _
  have hbne : b ≠ [] := (hprops b hbmem).2
  have hbhead : ∀ c, b.head? = some c → pyIsSpace c = false := by
    intro c hc
    rw [kb_blocks] at hbmem
    obtain ⟨⟨p, hp, hbp⟩, -⟩ := processParts_mem _ _ b hbmem
    subst hbp
    exact pyStrip_head_not_space hc
  have hIhead : (List.intercalate (delim80 ++ ("\n\n").data)
      (kb_blocks S C i j)).head? = b.head? := by
    rw [hbs]
    exact intercalate_head? hbne
  have hslnew : stripL (kb_newtext S C i j) =
      List.intercalate (delim80 ++ ("\n\n").data) (kb_blocks S C i j) := by
    rw [kb_newtext, stripL, List.dropWhile_append]
    rw [if_pos (by decide)]
    have hsl : stripL (List.intercalate (delim80 ++ ("\n\n").data)
        (kb_blocks S C i j)) =
        List.intercalate (delim80 ++ ("\n\n").data) (kb_blocks S C i j) :=
      stripL_eq_self_of_head (fun c hc => by rw [hIhead] at hc; exact hbhead c hc)
    rw [stripL] at hsl
    exact hsl
  rw [pyStrip, hslnew, hI.1]

/-- C1 (amended): the knowledge-base merge is idempotent on well-formed
inputs: both sentinels present with the open sentinel (fully) before the
close sentinel, a context batch that carries no close sentinel, and no stray
`Source:` text in the scan residue of the old region or of any surviving
context block.  Under these conditions
`_update_knowledge_base(_update_knowledge_base(S, C), C) =
_update_knowledge_base(S, C)`. -/
theorem update_idem (S C : List Char) {i j : Nat}
    (hfo : pyFind S kbOpenTag = some i) (hfc : pyFind S kbCloseTag = some j)
    (hij : i + 16 ≤ j) (hC : pyFind C kbCloseTag = none)
    (hkbres : pyFind (scanTail (pyStrip (pySlice S (i + 16) j))) srcLit = none)
    (hres : ∀ b ∈ kb_blocks S C i j, pyFind (scanTail b) srcLit = none) :
    update_knowledge_base (update_knowledge_base S C) C =
      update_knowledge_base S C := by
  by_cases hbl : (kb_blocks S C i j).isEmpty
  · rw [update_of_blocks_empty hfo hfc hbl, update_of_blocks_empty hfo hfc hbl]
  have hbl' : (kb_blocks S C i j).isEmpty = false := by
    cases h : (kb_blocks S C i j).isEmpty
    · rfl
    · exact absurd h hbl
  have hblne : kb_blocks S C i j ≠ [] := by
    intro h
    rw [h] at hbl'
    simp at hbl'
  obtain ⟨hune, huhead, hustripR⟩ := kb_updated_props hblne
  have hnewhead : (kb_newtext S C i j).head? = some '\n' := rfl
  have hnewnd : nonDigitHead (kb_newtext S C i j) := by
    intro c hc
    rw [hnewhead] at hc
    have hc' : c = '\n' := (Option.some.inj hc).symm
    subst hc'
    decide
  -- identity coverage: every id of the old region is an id of the new region
  have hext0 : ∀ q ∈ extract_context_identifiers (pyStrip (pySlice S (i + 16) j)),
      q ∈ extract_context_identifiers (kb_updated S C i j) := by
    intro q hq
    by_cases hke : (pyStrip (pySlice S (i + 16) j)).isEmpty
    · rw [List.isEmpty_iff.mp hke, extract_nil] at hq
      cases hq
    · rw [kb_updated, if_neg hke]
      exact extract_append_superset hnewnd
        (pyStrip (pySlice S (i + 16) j)).length _ le_rfl q hq
  -- identity coverage: every id of a surviving block is an id of the new region
  have hext : ∀ b ∈ kb_blocks S C i j, ∀ q, searchId b = some q →
      q ∈ extract_context_identifiers (kb_updated S C i j) := by
    intro b hb q hq
    have hqI : q ∈ extract_context_identifiers
        (List.intercalate (delim80 ++ ("\n\n").data) (kb_blocks S C i j)) :=
      extract_intercalate_mem (kb_blocks S C i j) hres q b hb
        (searchId_mem_extract hq)
    by_cases hke : (pyStrip (pySlice S (i + 16) j)).isEmpty
    · rw [kb_updated, if_pos hke, pyStrip_kb_newtext hblne]
      exact hqI
    · rw [kb_updated, if_neg hke]
      have hskip1 : noStartIn srcLit (scanTail (pyStrip (pySlice S (i + 16) j)))
          (kb_newtext S C i j) := by
        apply noStartIn_intro hkbres
        intro c hc
        rw [hnewhead] at hc
        have hc' : c = '\n' := (Option.some.inj hc).symm
        subst hc'
        decide
      rw [extract_append_decomp hnewnd (pyStrip (pySlice S (i + 16) j)).length _
        le_rfl]
      apply List.mem_append_right
      rw [extract_skip hskip1, kb_newtext, extract_skip
        (noStartIn_srcLit_of_head (by decide))]
      exact hqI
  rw [update_of_blocks_nonempty hfo hfc hbl']
  have hlt : i < S.length := occ_lt_length (by decide) (pyFind_some_elim hfo).1
  have hlen_take : (S.take i).length = i := by
    rw [List.length_take]
    omega
  have hRopen : pyFind (S.take i ++ kbOpenTag ++ ('\n' :: kb_updated S C i j) ++
      ('\n' :: kbCloseTag) ++ S.drop (j + 17)) kbOpenTag = some i := by
    have hsh : S.take i ++ kbOpenTag ++ ('\n' :: kb_updated S C i j) ++
        ('\n' :: kbCloseTag) ++ S.drop (j + 17) =
        S.take i ++ (kbOpenTag ++ (('\n' :: kb_updated S C i j) ++
          (('\n' :: kbCloseTag) ++ S.drop (j + 17)))) := by
      simp [List.append_assoc]
    rw [hsh]
    exact find_open_in_R hfo _
  have hRclose := find_close_in_R hfo hfc (by omega) hC
  have hdropR : (S.take i ++ kbOpenTag ++ ('\n' :: kb_updated S C i j) ++
      ('\n' :: kbCloseTag) ++ S.drop (j + 17)).drop (i + 16) =
      '\n' :: (kb_updated S C i j ++ (('\n' :: kbCloseTag) ++ S.drop (j + 17))) := by
    have hsh : S.take i ++ kbOpenTag ++ ('\n' :: kb_updated S C i j) ++
        ('\n' :: kbCloseTag) ++ S.drop (j + 17) =
        (S.take i ++ kbOpenTag) ++
          ('\n' :: (kb_updated S C i j ++ (('\n' :: kbCloseTag) ++
            S.drop (j + 17)))) := by
      simp [List.append_assoc]
    rw [hsh]
    rw [show i + 16 = (S.take i ++ kbOpenTag).length by
      simp [List.length_append, hlen_take]
      decide]
    exact List.drop_left _ _
  have hsliceR : pySlice (S.take i ++ kbOpenTag ++ ('\n' :: kb_updated S C i j) ++
      ('\n' :: kbCloseTag) ++ S.drop (j + 17)) (i + 16)
        (i + 18 + (kb_updated S C i j).length) =
      '\n' :: (kb_updated S C i j ++ ['\n']) := by
    rw [pySlice, List.drop_take, hdropR]
    rw [show i + 18 + (kb_updated S C i j).length - (i + 16) =
      ((kb_updated S C i j).length + 1) + 1 from by omega]
    rw [List.take_succ_cons]
    rw [show (kb_updated S C i j).length + 1 = (kb_updated S C i j).length + 1
      from rfl]
    rw [List.take_append]
    rw [show (('\n' :: kbCloseTag) ++ S.drop (j + 17)).take 1 = ['\n'] from rfl]
  have hregion2 : pyStrip (pySlice (S.take i ++ kbOpenTag ++
      ('\n' :: kb_updated S C i j) ++ ('\n' :: kbCloseTag) ++ S.drop (j + 17))
        (i + 16) (i + 18 + (kb_updated S C i j).length)) = kb_updated S C i j := by
    rw [hsliceR, pyStrip_region hune huhead hustripR]
    rw [if_pos (by decide)]
  have hbl2 : kb_blocks (S.take i ++ kbOpenTag ++ ('\n' :: kb_updated S C i j) ++
      ('\n' :: kbCloseTag) ++ S.drop (j + 17)) C i
        (i + 18 + (kb_updated S C i j).length) = [] := by
    rw [kb_blocks, hregion2]
    apply processParts_drop_all _
      (extract_context_identifiers (pyStrip (pySlice S (i + 16) j))) _ hext0
    intro b hb q hq
    apply hext b ?_ q hq
    rw [kb_blocks]
    exact hb
  exact update_of_blocks_empty hRopen hRclose (by rw [hbl2]; rfl)

set_option maxRecDepth 16000 in
/-- Counterexample to C1 as stated: a context batch that itself contains a
`</knowledge_base>` sentinel makes the merge non-idempotent — the second
merge finds the close sentinel inside the text the first merge inserted and
duplicates the batch. -/
theorem update_idem_counterexample :
    update_knowledge_base (update_knowledge_base
        ("<knowledge_base>\n</knowledge_base>").data
        ("foo\n</knowledge_base>\nSource: b.pdf (Chunk 2, s)").data)
      ("foo\n</knowledge_base>\nSource: b.pdf (Chunk 2, s)").data ≠
    update_knowledge_base ("<knowledge_base>\n</knowledge_base>").data
      ("foo\n</knowledge_base>\nSource: b.pdf (Chunk 2, s)").data := by
  decide

set_option maxRecDepth 16000 in
theorem update_idem_witness :
    pyFind ("[Context 1] Source: a.pdf (Chunk 1, Relevance Score: 0.9)\nTax facts").data
      kbCloseTag = none ∧
    (∀ b ∈ kb_blocks ("<knowledge_base>\n</knowledge_base>").data
        ("[Context 1] Source: a.pdf (Chunk 1, Relevance Score: 0.9)\nTax facts").data
        0 17, pyFind (scanTail b) srcLit = none) ∧
    update_knowledge_base (update_knowledge_base
        ("<knowledge_base>\n</knowledge_base>").data
        ("[Context 1] Source: a.pdf (Chunk 1, Relevance Score: 0.9)\nTax facts").data)
      ("[Context 1] Source: a.pdf (Chunk 1, Relevance Score: 0.9)\nTax facts").data =
    update_knowledge_base ("<knowledge_base>\n</knowledge_base>").data
      ("[Context 1] Source: a.pdf (Chunk 1, Relevance Score: 0.9)\nTax facts").data :=
  ⟨by decide, by decide,
    @update_idem ("<knowledge_base>\n</knowledge_base>").data
      ("[Context 1] Source: a.pdf (Chunk 1, Relevance Score: 0.9)\nTax facts").data
      0 17 (by decide) (by decide) (by decide) (by decide) (by decide) (by decide)⟩

set_option maxRecDepth 16000 in
theorem kb_region_ids_superset_witness :
    (("a.pdf".data, 1) : CtxId) ∈ kb_region_ids
      ("<knowledge_base>\nSource: a.pdf (Chunk 1, s)\n</knowledge_base>").data ∧
    (("a.pdf".data, 1) : CtxId) ∈ kb_region_ids (update_knowledge_base
      ("<knowledge_base>\nSource: a.pdf (Chunk 1, s)\n</knowledge_base>").data
      ("hello").data) :=
  ⟨by decide, kb_region_ids_superset _ _ _ (by decide)⟩

end Taxation
